import Mathlib

/-!
Verification of the bouncerdata acquisition/consolidation pipeline.

This file shallowly embeds the core logic of
`scripts/combine_cricinfo_parquets.py`, `scripts/cricinfo_scraper.py` and
`scripts/cricinfo_rich_scraper.py`:

* Python/Arrow values are modelled by `PValue` and Arrow column types by
  `PType`; Arrow tables are column-major lists of `PCol`.
* Arrow's `int64 -> float64` cast silently rounds to the nearest IEEE-754
  double (round to nearest, ties to even); `roundDouble` models that rounding
  exactly on integers, using rational numbers rather than machine floats.
* Filesystem effects are modelled as explicit traces of `FsOp` operations.
  A plain file write passes through an observable half-written state; a
  rename is atomic.  This lets atomic-replacement claims be stated and
  settled without real I/O.

Definitions are translated from the Python source; each definition names the
source function it embeds.
-/

namespace Bouncer

/-! ## Python value model -/

/-- A Python/Arrow scalar value as it appears in the tables handled by the
pipeline: `None`, an `int64`, a `float64` (modelled exactly as a rational),
a string, or a bool. -/
inductive PValue where
  | vnull : PValue
  | vint : Int → PValue
  | vfloat : ℚ → PValue
  | vstr : String → PValue
  | vbool : Bool → PValue
deriving DecidableEq, Repr

/-- Python truthiness of a `PValue` (`if x:`). -/
def pyTruthy : PValue → Bool
  | .vnull => false
  | .vint n => n ≠ 0
  | .vfloat q => q ≠ 0
  | .vstr s => s ≠ ""
  | .vbool b => b

/-- Rendering of a float value as Python/Arrow would render it.  No theorem
in this file depends on the exact format; it only needs to be a function of
the rational value. -/
def pyFloatRepr (q : ℚ) : String := toString q

/-- Python `str(x)` on the scalar values of the model (used by
`combine_table_type` when normalizing `match_id` values, and by the fixture
code when normalizing keys). -/
def pyStr : PValue → String
  | .vnull => "None"
  | .vint n => toString n
  | .vfloat q => pyFloatRepr q
  | .vstr s => s
  | .vbool b => if b then "True" else "False"

/-- Python `==` between a value and the empty string literal (`x == ""`):
true exactly for the empty string value. -/
def pyEqEmptyStr : PValue → Bool
  | .vstr s => s = ""
  | _ => false

/-! ## String helpers (Python string methods on the ASCII data involved) -/

/-- `sub` occurs somewhere in `l` (Python `sub in s` on the char list). -/
def listContainsSub (sub : List Char) : List Char → Bool
  | [] => sub.isEmpty
  | c :: rest => sub.isPrefixOf (c :: rest) || listContainsSub sub rest

/-- Python `sub in s` (substring containment). -/
def strContainsSub (s sub : String) : Bool :=
  listContainsSub sub.data s.data

/-- Python `s.lower()` on the ASCII strings this pipeline handles. -/
def pyLower (s : String) : String := String.mk (s.data.map Char.toLower)

/-- Python `s.endswith(suffix)`. -/
def strEndsWith (s suffix : String) : Bool :=
  suffix.data.isSuffixOf s.data

/-- Python `s.isdigit()` on the ASCII file-name stems this pipeline
handles: non-empty and all digits. -/
def strIsDigits (s : String) : Bool :=
  !s.data.isEmpty && s.data.all Char.isDigit

/-! ## Gender detection (`_detect_gender` in cricinfo_scraper.py and, with
identical logic, in cricinfo_rich_scraper.py) -/

/-- The metadata record consumed by `_detect_gender`: the `gender` field of
`initial_check` (absent key modelled as `none`), the list of team
abbreviations, and the slug string (`.get("slug", "")`). -/
structure InitialCheck where
  gender : Option String
  teams : List String
  slug : String
deriving DecidableEq, Repr

/-- The tail of `_detect_gender` reached when the `gender` field is falsy:
the `-W` team-suffix heuristic, then the `"women" in slug.lower()`
heuristic, else `None` (the code's final `if teams: return None` and
`return None` both return `None`). -/
def detectGenderTail (ic : InitialCheck) : Option String :=
  if ic.teams ≠ [] ∧ (ic.teams.filter (fun t => t ≠ "")).all (fun t => strEndsWith t "-W") then
    some "female"
  else if strContainsSub (pyLower ic.slug) "women" then
    some "female"
  else
    none

/-- `_detect_gender`: if the `gender` field is truthy, return its
lowercasing when canonical and `None` otherwise; only a falsy `gender`
field reaches the heuristics. -/
def detectGender (ic : InitialCheck) : Option String :=
  match ic.gender with
  | some g =>
      if g ≠ "" then
        if pyLower g = "male" ∨ pyLower g = "female" then some (pyLower g) else none
      else detectGenderTail ic
  | none => detectGenderTail ic

/-- Modelled from the amended claim: a truthy subgroup label is decided by
canonical lookup alone (yielding undetermined when non-canonical, without
running the heuristics); only an absent or empty label falls through to the
`-W` suffix heuristic and then the slug keyword heuristic. -/
def amendedGenderSpec (ic : InitialCheck) : Option String :=
  let canonicalLookup : String → Option String := fun g =>
    if pyLower g = "male" ∨ pyLower g = "female" then some (pyLower g) else none
  let heuristics : Option String :=
    if ic.teams ≠ [] ∧ (ic.teams.filter (fun t => t ≠ "")).all (fun t => strEndsWith t "-W") then
      some "female"
    else if strContainsSub (pyLower ic.slug) "women" then
      some "female"
    else none
  match ic.gender with
  | some g => if g ≠ "" then canonicalLookup g else heuristics
  | none => heuristics

/-! ## Innings merge (`_scrape_innings_loop`, lines 729-747 of
cricinfo_scraper.py; identical logic at lines 454-471 of
cricinfo_rich_scraper.py): combine SSR-seeded balls with balls extracted
from captured API payloads, deduplicating by id, then sort. -/

/-- One ball record, reduced to the fields the merge step inspects:
`id`, `overNumber` and `ballNumber` via `.get` (absent key modelled as
`none`), plus an opaque `rest` standing for all remaining attributes. -/
structure Ball where
  id : Option Int
  overNumber : Option Int
  ballNumber : Option Int
  rest : String
deriving DecidableEq, Repr

/-- One captured API payload: its `comments` list and its
`nextInningOver` field (`none` models both an absent key and `null`). -/
structure ApiResponse where
  comments : List Ball
  nextInningOver : Option Int
deriving DecidableEq, Repr

/-- One step of the dedup loop body: `if bid and bid not in seen_ids:
seen_ids.add(bid); innings_balls.append(ball)`.  State is the pair
(`seen_ids`, `innings_balls`). -/
def dedupStep (st : List Int × List Ball) (b : Ball) : List Int × List Ball :=
  match b.id with
  | some bid => if bid ≠ 0 ∧ bid ∉ st.1 then (bid :: st.1, st.2 ++ [b]) else st
  | none => st

/-- Python tuple comparison of the sort keys
`(b.get("overNumber", 0), b.get("ballNumber", 0))`. -/
def ballKeyLe (b1 b2 : Ball) : Bool :=
  decide (b1.overNumber.getD 0 < b2.overNumber.getD 0) ||
    (decide (b1.overNumber.getD 0 = b2.overNumber.getD 0) &&
      decide (b1.ballNumber.getD 0 ≤ b2.ballNumber.getD 0))

/-- The merge step of `_scrape_innings_loop`: fold the dedup body over the
seeded SSR balls, then over each payload's `comments` filtered to balls
whose `overNumber` is present, then sort by `(overNumber, ballNumber)`
(Python's stable sort modelled by the stable `List.mergeSort`). -/
def mergeInningsBalls (ssrBalls : List Ball) (apiResponses : List ApiResponse) : List Ball :=
  (apiResponses.foldl
    (fun st r => (r.comments.filter (fun b => b.overNumber ≠ none)).foldl dedupStep st)
    (ssrBalls.foldl dedupStep ([], []))).2.mergeSort ballKeyLe

/-- First-occurrence deduplication over a single eligible sequence: keep a
record when its id is truthy and not yet seen, drop it otherwise. -/
def dedupGo (seen : List Int) : List Ball → List Ball
  | [] => []
  | b :: rest =>
      match b.id with
      | some bid =>
          if bid ≠ 0 ∧ bid ∉ seen then b :: dedupGo (bid :: seen) rest
          else dedupGo seen rest
      | none => dedupGo seen rest

/-- First-occurrence-wins deduplication by record id, starting from no seen
ids. -/
def dedupFirstById (l : List Ball) : List Ball := dedupGo [] l

/-! ## Pagination loop (`_scrape_innings_loop`, lines 690-727 of
cricinfo_scraper.py).  The loop scrolls up to `max_scrolls = 200` times,
maintaining `prev_count` and `stale_rounds`.  The rich scraper's loop
(lines 429-452) is identical except that it has no crash-recovery branch,
i.e. it is exactly the `crashed = none` case. -/

/-- What round `i` of the scroll loop observes: whether the keyboard press
raised (and, if so, whether `_recover_page` succeeded), the length of
`api_responses` at the check, and the `nextInningOver` field of the most
recent payload (read only when the count grew). -/
structure ScrollRound where
  crashed : Option Bool
  count : Nat
  lastNextOver : Option Int

/-- The scroll loop body, fuelled by the remaining range of `i`.  Returns
the total number of scroll rounds executed.  `some true` recovery counts
the round as stale and continues without the count check; `some false`
aborts the innings. -/
def scrollGo (obs : Nat → ScrollRound) : Nat → Nat → Nat → Nat → Nat
  | 0, i, _, _ => i
  | fuel + 1, i, prev, stale =>
      match (obs i).crashed with
      | some true => scrollGo obs fuel (i + 1) prev (stale + 1)
      | some false => i + 1
      | none =>
          if (obs i).count > prev then
            if (obs i).lastNextOver = none then i + 1
            else scrollGo obs fuel (i + 1) (obs i).count 0
          else
            if stale + 1 ≥ 5 then i + 1
            else scrollGo obs fuel (i + 1) prev (stale + 1)

/-- `max_scrolls` in `_scrape_innings_loop`. -/
def maxScrolls : Nat := 200

/-- Number of scroll rounds the pagination loop executes. -/
def scrollIters (obs : Nat → ScrollRound) : Nat := scrollGo obs maxScrolls 0 0 0

/-- The value of `prev_count` on entry to round `j` (the running maximum of
the observed counts of earlier rounds). -/
def prevAt (obs : Nat → ScrollRound) : Nat → Nat
  | 0 => 0
  | j + 1 =>
      let p := prevAt obs j
      if (obs j).count > p then (obs j).count else p

/-- The value of `stale_rounds` on entry to round `j`: the number of
consecutive rounds immediately before `j` in which the captured-response
list did not grow. -/
def staleAt (obs : Nat → ScrollRound) : Nat → Nat
  | 0 => 0
  | j + 1 => if (obs j).count > prevAt obs j then 0 else staleAt obs j + 1

/-- The loop's early-stop condition at round `j`: either the round produced
new payloads and the most recent payload lacks `nextInningOver`, or the
round is the fifth consecutive round without growth. -/
def stopCond (obs : Nat → ScrollRound) (j : Nat) : Prop :=
  ((obs j).count > prevAt obs j ∧ (obs j).lastNextOver = none) ∨
    (¬(obs j).count > prevAt obs j ∧ staleAt obs j + 1 ≥ 5)

instance (obs : Nat → ScrollRound) (j : Nat) : Decidable (stopCond obs j) := by
  unfold stopCond; infer_instance

/-- An execution in which no payload ever arrives and round 4 is a recovered
driver crash (the keyboard press raises and `_recover_page` succeeds).
Rounds 0-4 are five consecutive rounds without growth, but round 4 takes the
`stale_rounds += 1; continue` branch, which bypasses the `>= 5` check. -/
def scrollCrashObs : Nat → ScrollRound :=
  fun i => if i = 4 then ⟨some true, 0, none⟩ else ⟨none, 0, none⟩

/-! ## Filesystem trace model

Persistent writes are modelled as traces of `FsOp` operations.  Executing a
plain `write` passes through an observable half-written state before the
complete data lands; a `rename` is atomic (single transition).  A "reader at
any observable moment" sees one of the states collected by `obsStates`. -/

/-- The state of one path: absent, half-written (a plain write was
interrupted or is in progress), or fully present with data `δ`. -/
inductive FileState (δ : Type) where
  | absent : FileState δ
  | halfWritten : FileState δ
  | full : δ → FileState δ
deriving DecidableEq, Repr

/-- A filesystem operation: a plain write of complete data to a path, or an
atomic rename of one path over another. -/
inductive FsOp (δ : Type) where
  | write : String → δ → FsOp δ
  | rename : String → String → FsOp δ
deriving DecidableEq, Repr

/-- Filesystem contents, one `FileState` per path. -/
def FsState (δ : Type) := String → FileState δ

/-- The final state after one operation. -/
def applyOp {δ : Type} (s : FsState δ) : FsOp δ → FsState δ
  | .write p d => fun q => if q = p then .full d else s q
  | .rename src dst => fun q => if q = dst then s src else if q = src then .absent else s q

/-- All states a reader can observe while a trace executes: the initial
state, the half-written intermediate state of every plain write, and the
state after each operation. -/
def obsStates {δ : Type} (s : FsState δ) : List (FsOp δ) → List (FsState δ)
  | [] => [s]
  | op :: rest =>
      match op with
      | .write p _ => s :: (fun q => if q = p then .halfWritten else s q) :: obsStates (applyOp s op) rest
      | .rename _ _ => s :: obsStates (applyOp s op) rest

/-- `Path.with_suffix(".parquet.tmp")` on the `*.parquet` target paths used
by this pipeline: the final `.parquet` suffix is replaced by
`.parquet.tmp`, i.e. `.tmp` is appended to the path. -/
def tmpPath (p : String) : String := p ++ ".tmp"

/-! ## Python dict model -/

/-- A Python dict row: bindings in insertion order (keys unique). -/
abbrev Row : Type := List (String × PValue)

/-- `d.get(k)` (first binding wins, as keys are unique). -/
def dictGet (d : Row) (k : String) : Option PValue :=
  (d.find? (fun e => e.1 = k)).map (·.2)

/-- `d[k] = v`: update in place when the key exists (insertion order kept),
else append. -/
def dictSet : Row → String → PValue → Row
  | [], k, v => [(k, v)]
  | e :: rest, k, v => if e.1 = k then (k, v) :: rest else e :: dictSet rest k v

/-- Python `==` on the scalar values of the model: numbers (and bools as
0/1) compare by value, strings by content, `None` only to itself, and
cross-kind comparisons are false. -/
def pyEq : PValue → PValue → Bool
  | .vnull, .vnull => true
  | .vint a, .vint b => a = b
  | .vint a, .vbool b => a = (if b then (1 : Int) else 0)
  | .vbool a, .vint b => (if a then (1 : Int) else 0) = b
  | .vbool a, .vbool b => a = b
  | .vint a, .vfloat q => (a : ℚ) = q
  | .vfloat q, .vint a => q = (a : ℚ)
  | .vfloat a, .vfloat b => a = b
  | .vfloat q, .vbool b => q = (if b then (1 : ℚ) else 0)
  | .vbool b, .vfloat q => (if b then (1 : ℚ) else 0) = q
  | .vstr a, .vstr b => a = b
  | _, _ => false

/-- A Python dict keyed by arbitrary values (here: the `existing` dict of
`save_fixtures`, keyed by `str(match_id)` strings but indexed with raw
incoming `match_id` values). -/
abbrev PyDict : Type := List (PValue × Row)

/-- Dict lookup under Python key equality. -/
def pyDictGet (d : PyDict) (k : PValue) : Option Row :=
  (d.find? (fun e => pyEq e.1 k)).map (·.2)

/-- Dict store under Python key equality: update in place (keeping the
stored key and insertion order) or append. -/
def pyDictSet : PyDict → PValue → Row → PyDict
  | [], k, v => [(k, v)]
  | e :: rest, k, v => if pyEq e.1 k then (e.1, v) :: rest else e :: pyDictSet rest k v

/-! ## Fixture table (`save_fixtures`, `mark_fixtures_scraped`,
`load_unscraped_fixtures`, `_get_scraped_match_ids` in
cricinfo_scraper.py) -/

/-- `FIXTURE_COLUMNS`. -/
def FIXTURE_COLUMNS : List String :=
  ["match_id", "series_id", "series_name", "format", "gender",
   "status", "start_date", "start_time", "title",
   "team1", "team1_abbrev", "team2", "team2_abbrev",
   "venue", "country", "status_text", "winner_team_id",
   "has_ball_by_ball"]

/-- The normalization step of `save_fixtures`:
`row = {col: f.get(col, "") for col in FIXTURE_COLUMNS}` followed by
`if row["has_ball_by_ball"] == "": row["has_ball_by_ball"] = False`. -/
def normalizeFixture (f : Row) : Row :=
  let row : Row := FIXTURE_COLUMNS.map (fun c => (c, (dictGet f c).getD (.vstr "")))
  if pyEqEmptyStr ((dictGet row "has_ball_by_ball").getD (.vstr "")) then
    dictSet row "has_ball_by_ball" (.vbool false)
  else row

/-- The merge body of `save_fixtures` for one normalized row: look the raw
incoming `match_id` up in the `existing` dict; when found and the existing
row's acquired-flag is truthy while the incoming one is falsy, copy the old
flag into the incoming row; then store the incoming row under the key. -/
def mergeFixtureStep (ex : PyDict) (row : Row) : PyDict :=
  let mid := (dictGet row "match_id").getD .vnull
  let row' :=
    match pyDictGet ex mid with
    | some old =>
        if pyTruthy ((dictGet old "has_ball_by_ball").getD .vnull) ∧
            ¬ pyTruthy ((dictGet row "has_ball_by_ball").getD .vnull) then
          dictSet row "has_ball_by_ball" ((dictGet old "has_ball_by_ball").getD .vnull)
        else row
    | none => row
  pyDictSet ex mid row'

/-- The final column fill of `save_fixtures`: every row gets every fixture
column, missing ones filled with `False` (acquired-flag) or `""`. -/
def ensureFixtureCols (row : Row) : Row :=
  FIXTURE_COLUMNS.foldl
    (fun r c =>
      if (dictGet r c).isSome then r
      else r ++ [(c, if c = "has_ball_by_ball" then .vbool false else .vstr "")])
    row

/-- `save_fixtures` (cricinfo_scraper.py lines 1371-1438).  `prior` is the
parsed content of `fixtures.parquet` when the file exists (the
read-failure path, which skips the save, is not taken when the file parses).
Returns the merged rows that are written (`none` when nothing is written)
and the filesystem trace: a plain write of the merged table to the
temporary path followed by an atomic rename over the target. -/
def save_fixtures (allFixtures : List Row) (prior : Option (List Row)) (outpath : String) :
    Option (List Row) × List (FsOp (List Row)) :=
  let normalized := allFixtures.map normalizeFixture
  if normalized = [] then (none, [])
  else
    let existing : PyDict :=
      match prior with
      | none => []
      | some rows => rows.map (fun r => (.vstr (pyStr ((dictGet r "match_id").getD .vnull)), r))
    let merged := normalized.foldl mergeFixtureStep existing
    let allRows := (merged.map (·.2)).map ensureFixtureCols
    (some allRows, [.write (tmpPath outpath) allRows, .rename (tmpPath outpath) outpath])

/-- `mark_fixtures_scraped` (cricinfo_scraper.py lines 1441-1463): set the
acquired-flag on matching rows and write the table back — directly to the
target path, with no temporary file. -/
def mark_fixtures_scraped (matchIds : List PValue) (prior : Option (List Row))
    (outpath : String) : Option (List Row) × List (FsOp (List Row)) :=
  match prior with
  | none => (none, [])
  | some rows =>
      if matchIds = [] then (none, [])
      else
        let scrapedSet := matchIds.map pyStr
        let rows' := rows.map (fun r =>
          if pyStr ((dictGet r "match_id").getD .vnull) ∈ scrapedSet then
            dictSet r "has_ball_by_ball" (.vbool true)
          else r)
        (some rows', [.write outpath rows'])

/-- `save_all_tables` (cricinfo_scraper.py lines 1238-1272; identical in
cricinfo_rich_scraper.py lines 953-987): for each of the three record
kinds with a non-empty row collection, write one parquet directly to
`{output_dir}/{format_dir}/{match_id}_{kind}.parquet` (a plain write, no
temporary file).  The rows passed in stand for the flattened tables the
source builds with `from_pylist`. -/
def save_all_tables (balls : List Row) (matchMeta : Option Row) (inningsData : List Row)
    (matchId : String) (formatDir : String) (outputDir : String) :
    List (FsOp (List Row)) × List (String × String) :=
  let outdir := outputDir ++ "/" ++ formatDir
  let ballsPart :=
    if balls ≠ [] then
      [(FsOp.write (outdir ++ "/" ++ matchId ++ "_balls.parquet") balls,
        ("balls", outdir ++ "/" ++ matchId ++ "_balls.parquet"))]
    else []
  let matchPart :=
    match matchMeta with
    | some m =>
        [(FsOp.write (outdir ++ "/" ++ matchId ++ "_match.parquet") [m],
          ("match", outdir ++ "/" ++ matchId ++ "_match.parquet"))]
    | none => []
  let inningsPart :=
    if inningsData ≠ [] then
      [(FsOp.write (outdir ++ "/" ++ matchId ++ "_innings.parquet") inningsData,
        ("innings", outdir ++ "/" ++ matchId ++ "_innings.parquet"))]
    else []
  let parts := ballsPart ++ matchPart ++ inningsPart
  (parts.map (·.1), parts.map (·.2))

/-- Python `str.replace` (all non-overlapping occurrences, left to right),
fuelled by the length of the subject. -/
def replaceGo (pat rep : List Char) : Nat → List Char → List Char
  | 0, l => l
  | fuel + 1, l =>
      if pat ≠ [] ∧ pat.isPrefixOf l then rep ++ replaceGo pat rep fuel (l.drop pat.length)
      else
        match l with
        | [] => []
        | c :: r => c :: replaceGo pat rep fuel r

/-- Python `s.replace(pat, rep)`. -/
def strReplaceAll (s pat rep : String) : String :=
  String.mk (replaceGo pat.data rep.data s.data.length s.data)

/-- The six per-format directories scanned by `_get_scraped_match_ids`. -/
def scrapedFormatDirs : List String :=
  ["t20i_male", "t20i_female", "odi_male", "odi_female", "test_male", "test_female"]

/-- `_get_scraped_match_ids` (lines 1301-1310): collect, over the six
format directories, the stems of `*_balls.parquet` files with `"_balls"`
removed.  `listing d` gives the stems of the parquet files present in
directory `d` (an absent directory lists as empty). -/
def getScrapedMatchIds (listing : String → List String) : List String :=
  scrapedFormatDirs.flatMap (fun d =>
    ((listing d).filter (fun stem => strEndsWith stem "_balls")).map
      (fun stem => strReplaceAll stem "_balls" ""))

/-- One per-series group produced by `load_unscraped_fixtures`. -/
structure SeriesGroup where
  seriesName : PValue
  format : PValue
  gender : PValue
  matchIds : List String
deriving DecidableEq, Repr

/-- The row filter of `load_unscraped_fixtures`: completed status, falsy
acquired-flag, match id not among the on-disk balls shards, format filter,
non-empty series id. -/
def unscrapedKeep (fsScraped : List String) (formatFilter : Option String) (row : Row) : Bool :=
  (pyEq ((dictGet row "status").getD .vnull) (.vstr "FINISHED") ||
    pyEq ((dictGet row "status").getD .vnull) (.vstr "POST")) &&
  !pyTruthy ((dictGet row "has_ball_by_ball").getD .vnull) &&
  !(pyStr ((dictGet row "match_id").getD (.vstr "")) ∈ fsScraped) &&
  (match formatFilter with
   | some ff => pyEq ((dictGet row "format").getD .vnull) (.vstr ff)
   | none => true) &&
  (pyStr ((dictGet row "series_id").getD (.vstr "")) ≠ "")

/-- Append a kept row's match id to its series group, creating the group
from the row's metadata on first sight. -/
def addToSeries (acc : List (String × SeriesGroup)) (row : Row) : List (String × SeriesGroup) :=
  let sid := pyStr ((dictGet row "series_id").getD (.vstr ""))
  let mid := pyStr ((dictGet row "match_id").getD (.vstr ""))
  if (acc.find? (fun e => e.1 = sid)).isSome then
    acc.map (fun e => if e.1 = sid then (e.1, { e.2 with matchIds := e.2.matchIds ++ [mid] }) else e)
  else
    acc ++ [(sid,
      { seriesName := (dictGet row "series_name").getD (.vstr "")
        format := (dictGet row "format").getD (.vstr "")
        gender := (dictGet row "gender").getD (.vstr "male")
        matchIds := [mid] })]

/-- `load_unscraped_fixtures` (lines 1313-1368): iterate the fixture rows,
keep those passing `unscrapedKeep`, and group their match ids by series id.
`prior` is the parsed `fixtures.parquet` (`none`: absent or unreadable,
yielding the empty result). -/
def load_unscraped_fixtures (prior : Option (List Row)) (fsScraped : List String)
    (formatFilter : Option String) : List (String × SeriesGroup) :=
  match prior with
  | none => []
  | some rows =>
      rows.foldl
        (fun acc row =>
          if unscrapedKeep fsScraped formatFilter row then addToSeries acc row else acc)
        []

/-! ## Arrow tables and schema unification
(`combine_cricinfo_parquets.py`) -/

/-- The Arrow column types occurring in this pipeline: the untyped null
type, `int64`, `float64`, `string`, `large_string`, `bool`. -/
inductive PType where
  | pnull : PType
  | pint : PType
  | pfloat : PType
  | pstring : PType
  | plargestring : PType
  | pbool : PType
deriving DecidableEq, Repr

/-- `pa.types.is_integer`. -/
def isIntTy (t : PType) : Bool := t = .pint

/-- `pa.types.is_floating`. -/
def isFloatTy (t : PType) : Bool := t = .pfloat

/-- `pa.types.is_string`. -/
def isStrTy (t : PType) : Bool := t = .pstring

/-- `pa.types.is_large_string`. -/
def isLargeStrTy (t : PType) : Bool := t = .plargestring

/-- One Arrow column: name, declared type, values. -/
structure PCol where
  name : String
  ty : PType
  vals : List PValue
deriving DecidableEq, Repr

/-- An Arrow table, column-major. -/
structure PTable where
  cols : List PCol
deriving DecidableEq, Repr

/-- `t.num_rows` (0 for a table with no columns). -/
def numRows (t : PTable) : Nat :=
  match t.cols with
  | [] => 0
  | c :: _ => c.vals.length

/-- `t.column(name)` / `name in t.column_names` as a lookup. -/
def findCol (t : PTable) (n : String) : Option PCol :=
  t.cols.find? (fun c => c.name = n)

/-- `t.column_names`. -/
def colNames (t : PTable) : List String := t.cols.map (·.name)

/-- Floor base-2 logarithm, fuelled for structural recursion. -/
def log2Go : Nat → Nat → Nat
  | 0, _ => 0
  | fuel + 1, n => if n ≥ 2 then log2Go fuel (n / 2) + 1 else 0

/-- Floor base-2 logarithm (`n` itself is always enough fuel). -/
def natLog2 (n : Nat) : Nat := log2Go n n

/-- Rounding of an integer to the nearest IEEE-754 double (round to
nearest, ties to even), stated exactly on integers: values of magnitude at
most `2^53` are exact; larger ones are rounded to a multiple of the unit in
the last place of their binade.  This is the value Arrow's `int64 ->
float64` cast produces (that cast does not signal precision loss). -/
def roundDouble (n : Int) : Int :=
  let a := n.natAbs
  if a ≤ 2 ^ 53 then n
  else
    let k := natLog2 a
    let ulp := 2 ^ (k - 52)
    let q := a / ulp
    let r := a % ulp
    let qr :=
      if 2 * r < ulp then q
      else if 2 * r > ulp then q + 1
      else if q % 2 = 0 then q else q + 1
    n.sign * (qr * ulp : Nat)

/-- Arrow's rendering of a scalar when cast to a string column.  (The float
format is not relied upon by any theorem.) -/
def arrowValToString : PValue → String
  | .vnull => "None"
  | .vint n => toString n
  | .vfloat q => pyFloatRepr q
  | .vstr s => s
  | .vbool b => if b then "true" else "false"

/-- Arrow cast of one value to a target type; `none` models a cast the
Arrow kernel would refuse (driving `unify_and_concat`'s string fallback).
Combinations no claim exercises (float to int, string/int parsing, casts to
null) are conservatively refused. -/
def castVal : PValue → PType → Option PValue
  | .vnull, _ => some .vnull
  | .vint n, .pint => some (.vint n)
  | .vint n, .pfloat => some (.vfloat (roundDouble n : ℚ))
  | .vint n, .pstring => some (.vstr (arrowValToString (.vint n)))
  | .vint n, .plargestring => some (.vstr (arrowValToString (.vint n)))
  | .vfloat q, .pfloat => some (.vfloat q)
  | .vfloat q, .pstring => some (.vstr (arrowValToString (.vfloat q)))
  | .vfloat q, .plargestring => some (.vstr (arrowValToString (.vfloat q)))
  | .vbool b, .pbool => some (.vbool b)
  | .vbool b, .pint => some (.vint (if b then 1 else 0))
  | .vbool b, .pfloat => some (.vfloat (if b then 1 else 0))
  | .vbool b, .pstring => some (.vstr (arrowValToString (.vbool b)))
  | .vbool b, .plargestring => some (.vstr (arrowValToString (.vbool b)))
  | .vstr s, .pstring => some (.vstr s)
  | .vstr s, .plargestring => some (.vstr s)
  | _, _ => none

/-- Cast every value of a column, failing if any single cast fails. -/
def castAll : List PValue → PType → Option (List PValue)
  | [], _ => some []
  | v :: vs, ty =>
      match castVal v ty, castAll vs ty with
      | some w, some ws => some (w :: ws)
      | _, _ => none

/-- Cast a value to string for the fallback path (`col.cast(pa.string())`;
nulls stay null). -/
def fallbackToString (v : PValue) : PValue :=
  match v with
  | .vnull => .vnull
  | v => .vstr (arrowValToString v)

/-- The per-column cast of `unify_and_concat` (lines 119-126): skip when
the type already matches, otherwise try the cast and fall back to a string
cast when the direct cast is not representable. -/
def castColumn (c : PCol) (target : PType) : PCol :=
  if c.ty = target then c
  else
    match castAll c.vals target with
    | some vs => ⟨c.name, target, vs⟩
    | none => ⟨c.name, .pstring, c.vals.map fallbackToString⟩

/-- The promotion of one field's unified type by one more occurrence (the
`elif` chain of lines 91-107): a null-typed entry upgrades to the incoming
type; equal types stay; an int/float conflict promotes to float; a conflict
involving a (large) string promotes to that string type; anything else
keeps the existing type. -/
def promoteTy (existing incoming : PType) : PType :=
  if existing = .pnull then incoming
  else if existing = incoming then existing
  else if isIntTy existing ∧ isFloatTy incoming then incoming
  else if isFloatTy existing ∧ isIntTy incoming then existing
  else if isStrTy existing ∨ isStrTy incoming then .pstring
  else if isLargeStrTy existing ∨ isLargeStrTy incoming then .plargestring
  else existing

/-- One step of the unified-schema construction (lines 86-107): first sight
of a name appends the field (preserving first-seen order); a later
occurrence updates the unique entry for that name in place via
`promoteTy`. -/
def promoteField : List (String × PType) → String → PType → List (String × PType)
  | [], name, incoming => [(name, incoming)]
  | e :: rest, name, incoming =>
      if e.1 = name then (e.1, promoteTy e.2 incoming) :: rest
      else e :: promoteField rest name incoming

/-- The unified field list, in first-seen order across the input tables. -/
def unifiedFields (tables : List PTable) : List (String × PType) :=
  tables.foldl (fun acc t => t.cols.foldl (fun a c => promoteField a c.name c.ty) acc) []

/-- Reconciling one table against the unified schema (lines 114-132):
present columns are cast as needed, wholly missing columns are filled with
nulls. -/
def reconcile (fields : List (String × PType)) (t : PTable) : PTable :=
  ⟨fields.map (fun f =>
    match findCol t f.1 with
    | some c => castColumn c f.2
    | none => ⟨f.1, f.2, List.replicate (numRows t) .vnull⟩)⟩

/-- `pa.concat_tables` over the reconciled tables (all share the unified
schema): per field, the concatenation of each table's column values. -/
def concatTables (fields : List (String × PType)) (uts : List PTable) : PTable :=
  ⟨fields.map (fun f =>
    ⟨f.1, f.2, uts.flatMap (fun t => ((findCol t f.1).map (·.vals)).getD [])⟩)⟩

/-- The sequence of declared types with which a field name occurs across
the input tables, in traversal order. -/
def occTys (tables : List PTable) (name : String) : List PType :=
  (((tables.flatMap (·.cols)).filter (fun c => c.name = name)).map (·.ty))

/-- Lookup of a field's type in a schema list. -/
def lookupTy (fields : List (String × PType)) (n : String) : Option PType :=
  (fields.find? (fun e => e.1 = n)).map (·.2)

/-- Folding a field's occurrence sequence through the promotion rule. -/
def occFold : Option PType → List PType → Option PType
  | st, [] => st
  | none, t :: rest => occFold (some t) rest
  | some e, t :: rest => occFold (some (promoteTy e t)) rest

/-- Deduplication keeping first occurrences (the order in which
`unify_and_concat` lists the unified attributes). -/
def firstSeen (l : List String) : List String :=
  l.foldl (fun acc n => if n ∈ acc then acc else acc ++ [n]) []

/-- `unify_and_concat` (lines 73-134). -/
def unify_and_concat (tables : List PTable) : Option PTable :=
  match tables with
  | [] => none
  | _ =>
      let fields := unifiedFields tables
      some (concatTables fields (tables.map (reconcile fields)))

/-! ## Combining per-match parquets (`combine_table_type`,
`extract_match_id`, `rename_balls_columns`) -/

/-- `BALLS_COLUMN_MAP`. -/
def BALLS_COLUMN_MAP : List (String × String) :=
  [("id", "id"),
   ("inningNumber", "innings_number"),
   ("overNumber", "over_number"),
   ("ballNumber", "ball_number"),
   ("oversActual", "overs_actual"),
   ("oversUnique", "overs_unique"),
   ("totalRuns", "total_runs"),
   ("batsmanRuns", "batsman_runs"),
   ("isFour", "is_four"),
   ("isSix", "is_six"),
   ("isWicket", "is_wicket"),
   ("dismissalType", "dismissal_type"),
   ("dismissalText", "dismissal_text"),
   ("wides", "wides"),
   ("noballs", "noballs"),
   ("byes", "byes"),
   ("legbyes", "legbyes"),
   ("penalties", "penalties"),
   ("wagonX", "wagon_x"),
   ("wagonY", "wagon_y"),
   ("wagonZone", "wagon_zone"),
   ("pitchLine", "pitch_line"),
   ("pitchLength", "pitch_length"),
   ("shotType", "shot_type"),
   ("shotControl", "shot_control"),
   ("batsmanPlayerId", "batsman_player_id"),
   ("bowlerPlayerId", "bowler_player_id"),
   ("nonStrikerPlayerId", "non_striker_player_id"),
   ("outPlayerId", "out_player_id"),
   ("totalInningRuns", "total_innings_runs"),
   ("totalInningWickets", "total_innings_wickets"),
   ("predicted_score", "predicted_score"),
   ("win_probability", "win_probability"),
   ("event_type", "event_type"),
   ("drs_successful", "drs_successful"),
   ("title", "title"),
   ("timestamp", "timestamp")]

/-- `rename_balls_columns` (lines 65-70): rename each column through the
map, leaving unmapped names unchanged. -/
def rename_balls_columns (t : PTable) : PTable :=
  ⟨t.cols.map (fun c =>
    ⟨((BALLS_COLUMN_MAP.find? (fun e => e.1 = c.name)).map (·.2)).getD c.name, c.ty, c.vals⟩)⟩

/-- The index of the last occurrence of `sep` in `l` (`none` when `sep`
does not occur; `sep` is always non-empty here). -/
def lastOccIdx (l sep : List Char) : Option Nat :=
  ((List.range (l.length + 1)).filter (fun i => sep.isPrefixOf (l.drop i))).getLast?

/-- Python `s.rsplit(sep, 1)[0]`: the part before the last occurrence of
`sep`, or all of `s` when `sep` does not occur. -/
def pyRsplitHead (s sep : String) : String :=
  match lastOccIdx s.data sep.data with
  | some i => String.mk (s.data.take i)
  | none => s

/-- `extract_match_id` (lines 137-143): strip `_{table_type}` from the
stem via `rsplit` and accept the result only when it is all digits. -/
def extract_match_id (stem : String) (table_type : String) : Option String :=
  let mid := pyRsplitHead stem ("_" ++ table_type)
  if strIsDigits mid then some mid else none

/-- Lexicographic order on char lists (the order `sorted()` applies to the
globbed file names). -/
def charListLe : List Char → List Char → Bool
  | [], _ => true
  | _ :: _, [] => false
  | a :: as, b :: bs =>
      decide (a.toNat < b.toNat) || (decide (a = b) && charListLe as bs)

/-- File-name order for `sorted(data_dir.glob(pattern))`. -/
def stemLe (a b : String) : Bool := charListLe a.data b.data

/-- The transform applied to one successfully read per-match table (lines
219-229): balls tables are renamed to snake case and get the
filename-derived `match_id` column appended; match/innings tables get it
appended (after dropping a null-typed one) only when their own `match_id`
column is missing or null-typed. -/
def attachMatchId (t : PTable) (mid : String) (table_type : String) : PTable :=
  let arr := List.replicate (numRows t) (PValue.vstr mid)
  if table_type = "balls" then
    let t' := rename_balls_columns t
    ⟨t'.cols ++ [⟨"match_id", .pstring, arr⟩]⟩
  else if ¬ ("match_id" ∈ colNames t) ∨ ((findCol t "match_id").map (·.ty)).getD .pnull = .pnull then
    let t' : PTable :=
      if "match_id" ∈ colNames t then ⟨t.cols.filter (fun c => c.name ≠ "match_id")⟩ else t
    ⟨t'.cols ++ [⟨"match_id", .pstring, arr⟩]⟩
  else t

/-- The match ids whose rows the prior combined table already holds,
normalized to strings (lines 167-177). -/
def existingIdsOf (existing : Option PTable) : List String :=
  match existing with
  | none => []
  | some t =>
      match findCol t "match_id" with
      | some c => c.vals.map pyStr
      | none => []

/-- `sorted(data_dir.glob(f"*_{table_type}.parquet"))` (line 183). -/
def globFiles (dirFiles : List (String × PTable)) (table_type : String) :
    List (String × PTable) :=
  (dirFiles.filter (fun f => strEndsWith f.1 ("_" ++ table_type))).mergeSort
    (fun a b => stemLe a.1 b.1)

/-- The set of unit ids having a balls shard in the directory (lines
191-194). -/
def ballIds (dirFiles : List (String × PTable)) : List String :=
  (dirFiles.filter (fun f => strEndsWith f.1 "_balls")).map
    (fun f => pyRsplitHead f.1 "_balls")

/-- The match/innings restriction to units with balls coverage (lines
190-195). -/
def ballFilter (dirFiles : List (String × PTable)) (table_type : String)
    (files : List (String × PTable)) : List (String × PTable) :=
  if table_type = "match" ∨ table_type = "innings" then
    files.filter (fun f => pyRsplitHead f.1 ("_" ++ table_type) ∈ ballIds dirFiles)
  else files

/-- The merge-mode exclusion of already-present unit ids (lines 197-199). -/
def mergeFilter (existing_ids : List String) (table_type : String)
    (files : List (String × PTable)) : List (String × PTable) :=
  if existing_ids ≠ [] then
    files.filter (fun f =>
      match extract_match_id f.1 table_type with
      | some mid => mid ∉ existing_ids
      | none => true)
  else files

/-- The file-selection pipeline of `combine_table_type` (lines 182-202):
glob `*_{table_type}.parquet` sorted by name; for match/innings kinds keep
only stems whose unit also has a balls shard in the directory; in merge
mode drop stems whose extracted id is already among the prior ids. -/
def selectedFiles (dirFiles : List (String × PTable)) (table_type : String)
    (existing_ids : List String) : List (String × PTable) :=
  mergeFilter existing_ids table_type
    (ballFilter dirFiles table_type (globFiles dirFiles table_type))

/-- `combine_table_type` (lines 146-268).  `priorFile` is the parsed
content of the combined output file when it exists (a file that exists but
fails to read behaves as `none` with a full rebuild, per lines 174-177);
`dirFiles` are the stems and parsed contents of the per-match directory
(per-file read failures are skipped by the source and not modelled).
Returns the table written (`none` when nothing is written) and the row
count the function returns. -/
def combine_table_type (merge : Bool) (priorFile : Option PTable) (dataDirExists : Bool)
    (dirFiles : List (String × PTable)) (table_type : String) : Option PTable × Nat :=
  let existing := if merge then priorFile else none
  let existing_ids := existingIdsOf existing
  if ¬ dataDirExists then (none, (existing.map numRows).getD 0)
  else
    let files := selectedFiles dirFiles table_type existing_ids
    if files = [] ∧ existing = none then (none, 0)
    else if files = [] ∧ existing_ids ≠ [] then (none, (existing.map numRows).getD 0)
    else
      let tables := files.filterMap (fun f =>
        (extract_match_id f.1 table_type).map (fun mid => attachMatchId f.2 mid table_type))
      match tables, existing with
      | [], none => (none, 0)
      | [], some p => (none, numRows p)
      | _ :: _, _ =>
          let newCombined := unify_and_concat tables
          let combined :=
            match existing, newCombined with
            | some p, some nc => unify_and_concat [p, nc]
            | _, _ => newCombined
          match combined with
          | none => (none, 0)
          | some c => (some c, numRows c)

/-- The evolution of `seen_ids` along the dedup loop of
`_scrape_innings_loop`. -/
def seenAfter (seen : List Int) : List Ball → List Int
  | [] => seen
  | b :: rest =>
      match b.id with
      | some bid =>
          if bid ≠ 0 ∧ bid ∉ seen then seenAfter (bid :: seen) rest else seenAfter seen rest
      | none => seenAfter seen rest

/-- A table with an untyped-null `x` and an int `y` (concrete shard used to
witness the schema-unification theorem). -/
def xyNullIntTable : PTable := ⟨[⟨"x", .pnull, [.vnull]⟩, ⟨"y", .pint, [.vint 7]⟩]⟩

/-- A table with a textual `x` and a float `y` (concrete shard used to
witness the schema-unification theorem). -/
def xyStrFloatTable : PTable :=
  ⟨[⟨"x", .pstring, [.vstr "a"]⟩, ⟨"y", .pfloat, [.vfloat ((3 : Int) : ℚ)]⟩]⟩

/-! # Theorems for the spec claims -/

/-- C9, counterexample: on a metadata record whose subgroup label is the
non-empty, non-canonical `"mixed"`, `_detect_gender` returns `None`
immediately, even though both later heuristics apply (every team label ends
in `-W`, and `"women"` occurs in the slug) and would yield `"female"` —
refuting the claim that a non-canonical non-empty label still lets the
later heuristics decide. -/
theorem detect_gender_label_blocks_heuristics_cex :
    detectGender ⟨some "mixed", ["IND-W", "AUS-W"], "aus-women-tour"⟩ = none ∧
    (["IND-W", "AUS-W"].all (fun t => strEndsWith t "-W") = true) ∧
    strContainsSub (pyLower "aus-women-tour") "women" = true ∧
    detectGenderTail ⟨some "mixed", ["IND-W", "AUS-W"], "aus-women-tour"⟩ = some "female" := by
  refine ⟨by decide, by decide, by decide, by decide⟩

/-- C9, amended: subgroup detection tries, in order, (1) exact lookup of a
truthy subgroup label against `male`/`female`, yielding undetermined for a
non-canonical non-empty label (without consulting the heuristics); only for
an absent or empty label, (2) the `-W` team-suffix heuristic and (3) the
`women`-in-slug heuristic, else undetermined. -/
theorem detect_gender_amended (ic : InitialCheck) :
    detectGender ic = amendedGenderSpec ic := by
  cases h : ic.gender with
  | none => simp [detectGender, amendedGenderSpec, detectGenderTail, h]
  | some g =>
      by_cases hg : g = "" <;>
        simp [detectGender, amendedGenderSpec, detectGenderTail, h, hg]

/-! ### Atomicity of the fixture-table writes (C4) and shard writes (C5) -/

theorem tmpPath_ne (p : String) : tmpPath p ≠ p := by
  intro h
  have h2 := congrArg String.length h
  rw [tmpPath, String.length_append] at h2
  have h3 : (".tmp" : String).length = 4 := rfl
  omega

/-- A temp-write followed by a rename never exposes the target in any state
other than its initial one or the complete new data. -/
theorem atomicReplaceTrace {δ : Type} (s0 : FsState δ) (tmp out : String) (d : δ)
    (hne : tmp ≠ out) :
    ∀ st ∈ obsStates s0 [FsOp.write tmp d, FsOp.rename tmp out],
      st out = s0 out ∨ st out = FileState.full d := by
  intro st hst
  simp only [obsStates, applyOp, List.mem_cons, List.not_mem_nil, or_false] at hst
  rcases hst with rfl | rfl | rfl | rfl
  · exact Or.inl rfl
  · exact Or.inl (if_neg (Ne.symm hne))
  · exact Or.inl (if_neg (Ne.symm hne))
  · right
    simp

/-- The trace `save_fixtures` emits: nothing (empty batch), or a plain
write of the merged table to the temporary path followed by a rename over
the target. -/
theorem save_fixtures_trace (allF : List Row) (prior : Option (List Row)) (outpath : String) :
    ((save_fixtures allF prior outpath).1 = none ∧ (save_fixtures allF prior outpath).2 = []) ∨
    ∃ rows, (save_fixtures allF prior outpath).1 = some rows ∧
      (save_fixtures allF prior outpath).2 =
        [FsOp.write (tmpPath outpath) rows, FsOp.rename (tmpPath outpath) outpath] := by
  by_cases hn : allF.map normalizeFixture = []
  · left
    simp [save_fixtures, hn]
  · right
    simp only [save_fixtures]
    rw [if_neg hn]
    exact ⟨_, rfl, rfl⟩

/-- C4, amended: the batched upsert `save_fixtures` is an atomic
replacement — the merged table goes to a temporary path and is renamed over
the target, so a reader of the target path only ever observes its prior
state or the complete merged table.  The acquired-flag update
`mark_fixtures_scraped`, however, rewrites the table with a single direct
write to the target path (no temporary file), so its write is not an
atomic replacement. -/
theorem save_fixtures_atomic_mark_direct (allF : List Row) (prior : Option (List Row))
    (outpath : String) (s0 : FsState (List Row)) :
    (∀ st ∈ obsStates s0 (save_fixtures allF prior outpath).2,
       st outpath = s0 outpath ∨
         ∃ rows, (save_fixtures allF prior outpath).1 = some rows ∧
           st outpath = FileState.full rows) ∧
    (∀ (mids : List PValue) (prior2 : Option (List Row)),
       (mark_fixtures_scraped mids prior2 outpath).2 = [] ∨
         ∃ rows, (mark_fixtures_scraped mids prior2 outpath).1 = some rows ∧
           (mark_fixtures_scraped mids prior2 outpath).2 = [FsOp.write outpath rows]) := by
  constructor
  · rcases save_fixtures_trace allF prior outpath with ⟨_, h2⟩ | ⟨rows, h1, h2⟩
    · intro st hst
      rw [h2] at hst
      simp only [obsStates, List.mem_singleton] at hst
      subst hst
      exact Or.inl rfl
    · intro st hst
      rw [h2] at hst
      rcases atomicReplaceTrace s0 (tmpPath outpath) outpath rows (tmpPath_ne outpath) st hst with
        h | h
      · exact Or.inl h
      · exact Or.inr ⟨rows, h1, h⟩
  · intro mids prior2
    cases prior2 with
    | none => left; rfl
    | some rows =>
        by_cases hm : mids = []
        · left
          simp [mark_fixtures_scraped, hm]
        · right
          simp only [mark_fixtures_scraped]
          rw [if_neg hm]
          exact ⟨_, rfl, rfl⟩

/-- C4, witness for `save_fixtures_atomic_mark_direct`: a concrete reader
of a concrete trace of `save_fixtures` observes the initial state or the
full merged table. -/
theorem save_fixtures_atomic_mark_direct_witness :
    ((fun _ => FileState.absent) : FsState (List Row)) "fixtures.parquet" =
        ((fun _ => FileState.absent) : FsState (List Row)) "fixtures.parquet" ∨
      ∃ rows,
        (save_fixtures [[("match_id", PValue.vstr "1")]] none "fixtures.parquet").1 = some rows ∧
          ((fun _ => FileState.absent) : FsState (List Row)) "fixtures.parquet" =
            FileState.full rows :=
  (save_fixtures_atomic_mark_direct [[("match_id", PValue.vstr "1")]] none "fixtures.parquet"
      (fun _ => FileState.absent)).1 _ (List.mem_cons_self _ _)

/-- C4, counterexample: on a concrete fixture table, the trace of
`mark_fixtures_scraped` contains an observable moment at which the target
path is half-written — refuting the claim that both fixture-table writes
are atomic replacements through a temporary path. -/
theorem mark_fixtures_scraped_partial_observable_cex :
    ∃ st ∈ obsStates (fun _ => (FileState.absent : FileState (List Row)))
        (mark_fixtures_scraped [PValue.vstr "1"]
          (some [[("match_id", PValue.vstr "1"), ("has_ball_by_ball", PValue.vbool false)]])
          "fixtures.parquet").2,
      st "fixtures.parquet" = FileState.halfWritten := by
  refine ⟨fun q => if q = "fixtures.parquet" then FileState.halfWritten else FileState.absent,
    ?_, by simp⟩
  exact List.mem_cons_of_mem _ (List.mem_cons_self _ _)

/-- C5, amended: every shard write of `save_all_tables` is a single direct
write of the complete table to the deterministic name
`{output_dir}/{format_dir}/{match_id}_{kind}.parquet`; a shard file is
written exactly for the non-empty collections, but the write goes straight
to the final path (no temporary file and no rename), so a failure mid-write
can leave a partial file at the shard's name. -/
theorem save_all_tables_direct_writes (balls : List Row) (mm : Option Row) (inn : List Row)
    (matchId fd od : String) :
    (balls ≠ [] →
      FsOp.write (od ++ "/" ++ fd ++ "/" ++ matchId ++ "_balls.parquet") balls ∈
        (save_all_tables balls mm inn matchId fd od).1) ∧
    (inn ≠ [] →
      FsOp.write (od ++ "/" ++ fd ++ "/" ++ matchId ++ "_innings.parquet") inn ∈
        (save_all_tables balls mm inn matchId fd od).1) ∧
    (∀ m, mm = some m →
      FsOp.write (od ++ "/" ++ fd ++ "/" ++ matchId ++ "_match.parquet") [m] ∈
        (save_all_tables balls mm inn matchId fd od).1) ∧
    (balls = [] → mm = none → inn = [] → (save_all_tables balls mm inn matchId fd od).1 = []) ∧
    (∀ op ∈ (save_all_tables balls mm inn matchId fd od).1, ∃ p d, op = FsOp.write p d) := by
  refine ⟨?_, ?_, ?_, ?_, ?_⟩
  · intro hb
    simp [save_all_tables, hb]
  · intro hi
    cases mm <;> by_cases hb : balls = [] <;> simp [save_all_tables, hb, hi]
  · intro m hm
    subst hm
    by_cases hb : balls = [] <;> simp [save_all_tables, hb]
  · intro hb hm hi
    subst hm
    simp [save_all_tables, hb, hi]
  · intro op hop
    cases mm <;> by_cases hb : balls = [] <;> by_cases hi : inn = [] <;>
      simp [save_all_tables, hb, hi] at hop
    all_goals aesop

/-- C5, witness for `save_all_tables_direct_writes`: concrete non-empty
collections produce the concrete deterministically named writes. -/
theorem save_all_tables_direct_writes_witness :
    FsOp.write ("cricinfo" ++ "/" ++ "t20i_male" ++ "/" ++ "123" ++ "_balls.parquet")
        [[("id", PValue.vint 1)]] ∈
      (save_all_tables [[("id", PValue.vint 1)]] none [] "123" "t20i_male" "cricinfo").1 :=
  (save_all_tables_direct_writes [[("id", PValue.vint 1)]] none [] "123" "t20i_male"
    "cricinfo").1 (by simp)

/-- C5, counterexample: on a concrete non-empty balls collection, the trace
of `save_all_tables` contains an observable moment at which the balls
shard's deterministic path is half-written — refuting the claim that a
shard is at every observable moment either complete or absent. -/
theorem save_all_tables_partial_observable_cex :
    ∃ st ∈ obsStates (fun _ => (FileState.absent : FileState (List Row)))
        (save_all_tables [[("id", PValue.vint 1)]] none [] "123" "t20i_male" "cricinfo").1,
      st "cricinfo/t20i_male/123_balls.parquet" = FileState.halfWritten := by
  refine ⟨fun q => if q = "cricinfo/t20i_male/123_balls.parquet" then FileState.halfWritten
    else FileState.absent, ?_, by simp⟩
  exact List.mem_cons_of_mem _ (List.mem_cons_self _ _)

/-! ### Fixture-upsert merge semantics (C6) -/

theorem pyEq_refl (v : PValue) : pyEq v v = true := by
  cases v <;> simp [pyEq]

theorem pyDictGet_set_self (d : PyDict) (k : PValue) (v : Row) :
    pyDictGet (pyDictSet d k v) k = some v := by
  induction d with
  | nil => simp [pyDictSet, pyDictGet, List.find?, pyEq_refl]
  | cons e rest ih =>
      by_cases he : pyEq e.1 k
      · simp [pyDictSet, pyDictGet, List.find?, he]
      · simpa [pyDictSet, pyDictGet, List.find?, he] using ih

theorem dictGet_set_self (d : Row) (k : String) (v : PValue) :
    dictGet (dictSet d k v) k = some v := by
  induction d with
  | nil => simp [dictSet, dictGet, List.find?]
  | cons e rest ih =>
      by_cases he : e.1 = k
      · simp [dictSet, dictGet, List.find?, he]
      · simpa [dictSet, dictGet, List.find?, he] using ih

theorem dictGet_set_ne (d : Row) (k k' : String) (v : PValue) (h : k' ≠ k) :
    dictGet (dictSet d k v) k' = dictGet d k' := by
  induction d with
  | nil => simp [dictSet, dictGet, List.find?, h, Ne.symm h]
  | cons e rest ih =>
      by_cases he : e.1 = k
      · subst he
        simp [dictSet, dictGet, List.find?, h, Ne.symm h]
      · by_cases he' : e.1 = k'
        · simp [dictSet, dictGet, List.find?, he, he', h, Ne.symm h]
        · simpa [dictSet, dictGet, List.find?, he, he', h, Ne.symm h] using ih

/-- C6, amended: for a unit id already present in the fixture table, the
upsert's merge stores the incoming normalized row wholesale — every field
other than the acquired-flag takes the incoming value, empty or not —
except that a truthy stored acquired-flag is copied into a falsy incoming
row, so a set flag is never regressed. -/
theorem save_fixtures_merge_step (ex : PyDict) (row : Row) (old : Row)
    (hold : pyDictGet ex ((dictGet row "match_id").getD .vnull) = some old) :
    ∃ stored,
      pyDictGet (mergeFixtureStep ex row) ((dictGet row "match_id").getD .vnull) = some stored ∧
      (∀ c, c ≠ "has_ball_by_ball" → dictGet stored c = dictGet row c) ∧
      (pyTruthy ((dictGet old "has_ball_by_ball").getD .vnull) = true →
        pyTruthy ((dictGet stored "has_ball_by_ball").getD .vnull) = true) := by
  simp only [mergeFixtureStep, hold]
  by_cases hcopy : pyTruthy ((dictGet old "has_ball_by_ball").getD .vnull) ∧
      ¬ pyTruthy ((dictGet row "has_ball_by_ball").getD .vnull)
  · rw [if_pos hcopy]
    refine ⟨_, pyDictGet_set_self _ _ _, ?_, ?_⟩
    · intro c hc
      exact dictGet_set_ne _ _ _ _ hc
    · intro _
      rw [dictGet_set_self]
      simpa using hcopy.1
  · rw [if_neg hcopy]
    refine ⟨_, pyDictGet_set_self _ _ _, fun c _ => rfl, ?_⟩
    intro htr
    rcases not_and_or.mp hcopy with h | h
    · exact absurd htr h
    · simpa using h

/-- C6, witness for `save_fixtures_merge_step`: a concrete merge where the
existing row's truthy flag survives an incoming falsy one. -/
theorem save_fixtures_merge_step_witness :
    ∃ stored,
      pyDictGet
          (mergeFixtureStep
            [(PValue.vstr "1",
              [("match_id", PValue.vstr "1"), ("has_ball_by_ball", PValue.vbool true)])]
            [("match_id", PValue.vstr "1"), ("has_ball_by_ball", PValue.vbool false)])
          ((dictGet [("match_id", PValue.vstr "1"), ("has_ball_by_ball", PValue.vbool false)]
              "match_id").getD .vnull) = some stored ∧
      (∀ c, c ≠ "has_ball_by_ball" →
        dictGet stored c =
          dictGet [("match_id", PValue.vstr "1"), ("has_ball_by_ball", PValue.vbool false)] c) ∧
      (pyTruthy ((dictGet [("match_id", PValue.vstr "1"),
          ("has_ball_by_ball", PValue.vbool true)] "has_ball_by_ball").getD .vnull) = true →
        pyTruthy ((dictGet stored "has_ball_by_ball").getD .vnull) = true) :=
  save_fixtures_merge_step
    [(PValue.vstr "1",
      [("match_id", PValue.vstr "1"), ("has_ball_by_ball", PValue.vbool true)])]
    [("match_id", PValue.vstr "1"), ("has_ball_by_ball", PValue.vbool false)]
    [("match_id", PValue.vstr "1"), ("has_ball_by_ball", PValue.vbool true)]
    (by decide)

/-- C6, counterexample: upserting a batch whose row for an already-present
unit id has an empty `venue` overwrites the stored non-empty `"MCG"` with
the empty string — refuting the claim that a field is overwritten only when
the incoming value is non-empty. -/
theorem save_fixtures_empty_overwrite_cex :
    ∃ r,
      (save_fixtures [[("match_id", PValue.vstr "1")]]
          (some [[("match_id", PValue.vstr "1"), ("venue", PValue.vstr "MCG"),
                  ("has_ball_by_ball", PValue.vbool false)]])
          "fixtures.parquet").1 = some [r] ∧
      dictGet r "venue" = some (PValue.vstr "") ∧
      dictGet r "venue" ≠ some (PValue.vstr "MCG") := by
  refine ⟨_, rfl, by decide, by decide⟩

/-! ### Listing units still to acquire (C7) -/

theorem addToSeries_mids_mem (acc : List (String × SeriesGroup)) (row : Row) (mid : String) :
    (∃ e ∈ addToSeries acc row, mid ∈ e.2.matchIds) ↔
      (∃ e ∈ acc, mid ∈ e.2.matchIds) ∨
        pyStr ((dictGet row "match_id").getD (.vstr "")) = mid := by
  by_cases hf : (acc.find? (fun e =>
      e.1 = pyStr ((dictGet row "series_id").getD (.vstr "")))).isSome
  · simp only [addToSeries, hf, if_true]
    constructor
    · rintro ⟨e, he, hmem⟩
      rcases List.mem_map.1 he with ⟨e', he', rfl⟩
      by_cases h1 : e'.1 = pyStr ((dictGet row "series_id").getD (.vstr ""))
      · simp only [h1, if_true] at hmem
        rcases List.mem_append.1 hmem with h | h
        · exact Or.inl ⟨e', he', h⟩
        · simp at h
          exact Or.inr h.symm
      · simp only [h1, if_false] at hmem
        exact Or.inl ⟨e', he', hmem⟩
    · rintro (⟨e, he, hmem⟩ | hmid)
      · refine ⟨_, List.mem_map_of_mem _ he, ?_⟩
        by_cases h1 : e.1 = pyStr ((dictGet row "series_id").getD (.vstr "")) <;>
          simp [h1, hmem]
      · obtain ⟨e₀, he₀⟩ := Option.isSome_iff_exists.mp hf
        have hp := List.find?_some he₀
        have hm := List.mem_of_find?_eq_some he₀
        simp only [decide_eq_true_eq] at hp
        refine ⟨_, List.mem_map_of_mem _ hm, ?_⟩
        simp [hp, hmid]
  · simp only [addToSeries, hf, if_false]
    constructor
    · rintro ⟨e, he, hmem⟩
      rcases List.mem_append.1 he with h | h
      · exact Or.inl ⟨e, h, hmem⟩
      · simp only [List.mem_singleton] at h
        subst h
        simp at hmem
        exact Or.inr hmem.symm
    · rintro (⟨e, he, hmem⟩ | hmid)
      · exact ⟨e, List.mem_append_left _ he, hmem⟩
      · exact ⟨_, List.mem_append_right _ (List.mem_singleton_self _), by simp [hmid]⟩

theorem load_fold_mem (fsS : List String) (ff : Option String) (mid : String) :
    ∀ (rows : List Row) (acc : List (String × SeriesGroup)),
      (∃ e ∈ rows.foldl
          (fun acc row => if unscrapedKeep fsS ff row then addToSeries acc row else acc) acc,
          mid ∈ e.2.matchIds) ↔
        (∃ e ∈ acc, mid ∈ e.2.matchIds) ∨
          ∃ row ∈ rows, unscrapedKeep fsS ff row = true ∧
            pyStr ((dictGet row "match_id").getD (.vstr "")) = mid := by
  intro rows
  induction rows with
  | nil => simp
  | cons r rest ih =>
      intro acc
      simp only [List.foldl_cons]
      by_cases hk : unscrapedKeep fsS ff r
      · rw [if_pos hk, ih, addToSeries_mids_mem]
        constructor
        · rintro ((h | h) | h)
          · exact Or.inl h
          · exact Or.inr ⟨r, List.mem_cons_self _ _, hk, h⟩
          · rcases h with ⟨row, hr, hkeep, hmid⟩
            exact Or.inr ⟨row, List.mem_cons_of_mem _ hr, hkeep, hmid⟩
        · rintro (h | ⟨row, hr, hkeep, hmid⟩)
          · exact Or.inl (Or.inl h)
          · rcases List.mem_cons.1 hr with rfl | hr'
            · exact Or.inl (Or.inr hmid)
            · exact Or.inr ⟨row, hr', hkeep, hmid⟩
      · rw [if_neg hk, ih]
        constructor
        · rintro (h | ⟨row, hr, hkeep, hmid⟩)
          · exact Or.inl h
          · exact Or.inr ⟨row, List.mem_cons_of_mem _ hr, hkeep, hmid⟩
        · rintro (h | ⟨row, hr, hkeep, hmid⟩)
          · exact Or.inl h
          · rcases List.mem_cons.1 hr with rfl | hr'
            · exact absurd hkeep (by simpa using hk)
            · exact Or.inr ⟨row, hr', hkeep, hmid⟩

/-- C7, amended: a match id appears in the grouped result of
`load_unscraped_fixtures` exactly when some fixture row carries it and
passes the row filter: completed status, *falsy acquired-flag*, no balls
shard on disk, format filter, non-empty series id.  The on-disk cross-check
(`_get_scraped_match_ids`) thus only prevents re-acquiring units whose
shard exists while the flag is stale-false; a stale-true flag skips the
unit even when its balls shard is absent. -/
theorem load_unscraped_membership (rows : List Row) (fsScraped : List String)
    (ff : Option String) (mid : String) :
    (∃ e ∈ load_unscraped_fixtures (some rows) fsScraped ff, mid ∈ e.2.matchIds) ↔
      ∃ row ∈ rows, unscrapedKeep fsScraped ff row = true ∧
        pyStr ((dictGet row "match_id").getD (.vstr "")) = mid := by
  unfold load_unscraped_fixtures
  rw [load_fold_mem]
  simp

/-- C7, counterexample: a completed fixture row whose acquired-flag is
(stale-)true while no balls shard exists anywhere on disk is *not*
included in the grouped result — `load_unscraped_fixtures` returns the
empty grouping — refuting the claim that such a unit is always listed. -/
theorem load_unscraped_stale_true_flag_cex :
    getScrapedMatchIds (fun _ => []) = [] ∧
    load_unscraped_fixtures
        (some [[("match_id", PValue.vstr "123"), ("series_id", PValue.vstr "7"),
                ("status", PValue.vstr "FINISHED"), ("has_ball_by_ball", PValue.vbool true)]])
        (getScrapedMatchIds (fun _ => [])) none = [] := by
  exact ⟨by decide, by decide⟩

/-! ### Innings merge: dedup and ordering (C2) -/

theorem foldl_dedupStep (l : List Ball) :
    ∀ (seen : List Int) (acc : List Ball),
      l.foldl dedupStep (seen, acc) = (seenAfter seen l, acc ++ dedupGo seen l) := by
  induction l with
  | nil => intro seen acc; simp [seenAfter, dedupGo]
  | cons b rest ih =>
      intro seen acc
      simp only [List.foldl_cons]
      cases hid : b.id with
      | none => simp [dedupStep, hid, seenAfter, dedupGo, ih]
      | some bid =>
          by_cases hc : bid ≠ 0 ∧ bid ∉ seen
          · simp [dedupStep, hid, hc, seenAfter, dedupGo, ih]
          · simp [dedupStep, hid, hc, seenAfter, dedupGo, ih]

theorem foldl_dedup_flatten (g : ApiResponse → List Ball) (resps : List ApiResponse) :
    ∀ st : List Int × List Ball,
      resps.foldl (fun st r => (g r).foldl dedupStep st) st =
        ((resps.map g).flatten).foldl dedupStep st := by
  induction resps with
  | nil => intro st; rfl
  | cons r rs ih =>
      intro st
      simp only [List.foldl_cons, List.map_cons, List.flatten_cons, List.foldl_append]
      exact ih _

theorem dedupGo_ids (l : List Ball) :
    ∀ seen : List Int,
      (∀ b ∈ dedupGo seen l, ∃ bid, b.id = some bid ∧ bid ≠ 0 ∧ bid ∉ seen) ∧
      (dedupGo seen l).Pairwise (fun a b => a.id ≠ b.id) := by
  induction l with
  | nil => intro seen; simp [dedupGo]
  | cons b rest ih =>
      intro seen
      cases hid : b.id with
      | none => simpa [dedupGo, hid] using ih seen
      | some bid =>
          by_cases hc : bid ≠ 0 ∧ bid ∉ seen
          · simp only [dedupGo, hid]
            rw [if_pos hc]
            obtain ⟨ihm, ihp⟩ := ih (bid :: seen)
            refine ⟨?_, ?_⟩
            · intro b' hb'
              rcases List.mem_cons.1 hb' with rfl | hb'
              · exact ⟨bid, hid, hc⟩
              · obtain ⟨bid', hbid', hne', hmem'⟩ := ihm b' hb'
                exact ⟨bid', hbid', hne', fun h => hmem' (List.mem_cons_of_mem _ h)⟩
            · refine List.pairwise_cons.2 ⟨?_, ihp⟩
              intro b' hb'
              obtain ⟨bid', hbid', _, hmem'⟩ := ihm b' hb'
              rw [hid, hbid']
              intro h
              injection h with h
              exact hmem' (h ▸ List.mem_cons_self _ _)
          · simp only [dedupGo, hid]
            rw [if_neg hc]
            exact ih seen

theorem ballKeyLe_trans (a b c : Ball) :
    ballKeyLe a b = true → ballKeyLe b c = true → ballKeyLe a c = true := by
  simp only [ballKeyLe, Bool.or_eq_true, Bool.and_eq_true, decide_eq_true_eq]
  omega

theorem ballKeyLe_total (a b : Ball) : (ballKeyLe a b || ballKeyLe b a) = true := by
  simp only [ballKeyLe, Bool.or_eq_true, Bool.and_eq_true, decide_eq_true_eq]
  omega

/-- C2: for every seeded record set and captured payload sequence, the
merged record list of `_scrape_innings_loop` equals the stable sort, by
`(overNumber, ballNumber)`, of the first-occurrence-wins deduplication of
the eligible sequence (snapshot-seeded records first, then the captured
payloads' records with a present `overNumber`, in order); it contains no
two records with the same record id, and it is sorted by
`(overNumber, ballNumber)`. -/
theorem innings_merge_dedup_sorted (ssrBalls : List Ball) (apiResponses : List ApiResponse) :
    mergeInningsBalls ssrBalls apiResponses =
      (dedupFirstById (ssrBalls ++
        (apiResponses.map (fun r => r.comments.filter (fun b => b.overNumber ≠ none))).flatten)
        ).mergeSort ballKeyLe ∧
    (mergeInningsBalls ssrBalls apiResponses).Pairwise (fun a b => a.id ≠ b.id) ∧
    (mergeInningsBalls ssrBalls apiResponses).Pairwise (fun a b => ballKeyLe a b = true) := by
  have hmain : mergeInningsBalls ssrBalls apiResponses =
      (dedupFirstById (ssrBalls ++
        (apiResponses.map (fun r => r.comments.filter (fun b => b.overNumber ≠ none))).flatten)
        ).mergeSort ballKeyLe := by
    unfold mergeInningsBalls dedupFirstById
    rw [foldl_dedup_flatten, ← List.foldl_append, foldl_dedupStep]
    simp
  refine ⟨hmain, ?_, ?_⟩
  · rw [hmain]
    have hperm := List.mergeSort_perm
      (dedupFirstById (ssrBalls ++
        (apiResponses.map (fun r => r.comments.filter (fun b => b.overNumber ≠ none))).flatten))
      ballKeyLe
    have hsym : ∀ {x y : Ball}, x.id ≠ y.id → y.id ≠ x.id := fun h => Ne.symm h
    exact (List.Perm.pairwise_iff hsym hperm).2 (dedupGo_ids _ []).2
  · rw [hmain]
    exact List.sorted_mergeSort ballKeyLe_trans ballKeyLe_total _

/-! ### Pagination bounds and stop conditions (C8) -/

theorem scrollGo_spec (obs : Nat → ScrollRound) (hcf : ∀ i, (obs i).crashed = none) :
    ∀ (fuel i : Nat),
      i ≤ scrollGo obs fuel i (prevAt obs i) (staleAt obs i) ∧
      scrollGo obs fuel i (prevAt obs i) (staleAt obs i) ≤ i + fuel ∧
      (∀ j, i ≤ j → j + 1 < scrollGo obs fuel i (prevAt obs i) (staleAt obs i) →
        ¬ stopCond obs j) ∧
      (scrollGo obs fuel i (prevAt obs i) (staleAt obs i) < i + fuel →
        i < scrollGo obs fuel i (prevAt obs i) (staleAt obs i) ∧
        stopCond obs (scrollGo obs fuel i (prevAt obs i) (staleAt obs i) - 1)) := by
  intro fuel
  induction fuel with
  | zero =>
      intro i
      simp only [scrollGo]
      exact ⟨le_refl _, by omega, fun j hj hj2 => absurd hj2 (by omega), fun h => absurd h (by omega)⟩
  | succ fuel ih =>
      intro i
      have hc := hcf i
      simp only [scrollGo, hc]
      by_cases hg : (obs i).count > prevAt obs i
      · rw [if_pos hg]
        by_cases hn : (obs i).lastNextOver = none
        · rw [if_pos hn]
          refine ⟨by omega, by omega, fun j hj hj2 => absurd hj2 (by omega), fun _ => ⟨by omega, ?_⟩⟩
          simpa using Or.inl ⟨hg, hn⟩
        · rw [if_neg hn]
          have hprev : prevAt obs (i + 1) = (obs i).count := by
            simp [prevAt, hg]
          have hstale : staleAt obs (i + 1) = 0 := by
            simp [staleAt, hg]
          have H := ih (i + 1)
          rw [hprev, hstale] at H
          obtain ⟨h1, h2, h3, h4⟩ := H
          refine ⟨by omega, by omega, ?_, ?_⟩
          · intro j hj hj2
            rcases eq_or_lt_of_le hj with rfl | hj'
            · rintro (⟨_, h⟩ | ⟨h, _⟩)
              · exact hn h
              · exact h hg
            · exact h3 j hj' hj2
          · intro hlt
            have h4' := h4 (by omega)
            exact ⟨by omega, h4'.2⟩
      · rw [if_neg hg]
        by_cases hs : staleAt obs i + 1 ≥ 5
        · rw [if_pos hs]
          refine ⟨by omega, by omega, fun j hj hj2 => absurd hj2 (by omega), fun _ => ⟨by omega, ?_⟩⟩
          simpa using Or.inr ⟨hg, hs⟩
        · rw [if_neg hs]
          have hprev : prevAt obs (i + 1) = prevAt obs i := by
            simp [prevAt, hg]
          have hstale : staleAt obs (i + 1) = staleAt obs i + 1 := by
            simp [staleAt, hg]
          have H := ih (i + 1)
          rw [hprev, hstale] at H
          obtain ⟨h1, h2, h3, h4⟩ := H
          refine ⟨by omega, by omega, ?_, ?_⟩
          · intro j hj hj2
            rcases eq_or_lt_of_le hj with rfl | hj'
            · rintro (⟨h, _⟩ | ⟨_, h⟩)
              · exact hg h
              · exact hs h
            · exact h3 j hj' hj2
          · intro hlt
            have h4' := h4 (by omega)
            exact ⟨by omega, h4'.2⟩

/-- C8, amended: the original claim promises the loop stops as soon as 5
consecutive rounds pass without growth, but the base scraper's recovered
crash branch (`stale_rounds += 1; continue`, lines 703-710) skips the
`>= 5` check for that round, so a run in which the fifth consecutive
non-growth round is a crash round continues past it (see the
counterexample).  The amended claim restricts the stop guarantee to
crash-free executions — always the case for the rich scraper, whose loop
has no crash branch: there the pagination loop executes at most
`max_scrolls = 200` rounds, never continues past a round satisfying a stop
condition, and when it stops before exhausting the cap, the final round
either produced new payloads whose most recent payload lacks
`nextInningOver`, or was the fifth consecutive round in which the
captured-response list did not grow. -/
theorem pagination_loop_bounds (obs : Nat → ScrollRound)
    (hcf : ∀ i, (obs i).crashed = none) :
    scrollIters obs ≤ 200 ∧
    (∀ j, j + 1 < scrollIters obs → ¬ stopCond obs j) ∧
    (scrollIters obs < 200 → 1 ≤ scrollIters obs ∧ stopCond obs (scrollIters obs - 1)) := by
  have H := scrollGo_spec obs hcf 200 0
  obtain ⟨h1, h2, h3, h4⟩ := H
  have hiter : scrollIters obs = scrollGo obs 200 0 (prevAt obs 0) (staleAt obs 0) := rfl
  rw [hiter]
  exact ⟨by omega, fun j hj => h3 j (by omega) hj, fun hlt => ⟨by have := h4 (by omega); omega,
    (h4 (by omega)).2⟩⟩

/-- C8, witness for `pagination_loop_bounds`: the constant observation in
which no payload ever arrives; the loop stops after 5 stale rounds. -/
theorem pagination_loop_bounds_witness :
    scrollIters (fun _ => ⟨none, 0, none⟩) ≤ 200 ∧
    (∀ j, j + 1 < scrollIters (fun _ => ⟨none, 0, none⟩) →
      ¬ stopCond (fun _ => ⟨none, 0, none⟩) j) ∧
    (scrollIters (fun _ => ⟨none, 0, none⟩) < 200 →
      1 ≤ scrollIters (fun _ => ⟨none, 0, none⟩) ∧
      stopCond (fun _ => ⟨none, 0, none⟩) (scrollIters (fun _ => ⟨none, 0, none⟩) - 1)) :=
  pagination_loop_bounds _ (fun _ => rfl)

/-- C8, counterexample to the original claim: in `scrollCrashObs` the
captured-response list never grows and round 4 is a recovered crash.
Rounds 0-4 are five consecutive rounds without growth, so the stop
condition holds at round 4, yet the crash branch bypasses the stale
check and the loop executes a sixth round instead of stopping — it does
not stop "as soon as" 5 consecutive stale rounds pass. -/
theorem pagination_crash_skips_stale_check_cex :
    (scrollCrashObs 4).crashed = some true ∧
    stopCond scrollCrashObs 4 ∧
    scrollIters scrollCrashObs = 6 ∧
    4 + 1 < scrollIters scrollCrashObs := by
  decide

/-! ### Schema unification lemmas (C3, shared with C1) -/

theorem lookupTy_promoteField_self (acc : List (String × PType)) (n : String) (ty : PType) :
    lookupTy (promoteField acc n ty) n =
      some (match lookupTy acc n with
            | none => ty
            | some e => promoteTy e ty) := by
  induction acc with
  | nil => simp [promoteField, lookupTy, List.find?]
  | cons e rest ih =>
      by_cases he : e.1 = n
      · simp [promoteField, lookupTy, List.find?, he]
      · simpa [promoteField, lookupTy, List.find?, he] using ih

theorem lookupTy_promoteField_ne (acc : List (String × PType)) (n m : String) (ty : PType)
    (h : m ≠ n) :
    lookupTy (promoteField acc n ty) m = lookupTy acc m := by
  induction acc with
  | nil => simp [promoteField, lookupTy, List.find?, Ne.symm h]
  | cons e rest ih =>
      by_cases he : e.1 = n
      · have hem : ¬ e.1 = m := by rw [he]; exact Ne.symm h
        simp [promoteField, lookupTy, List.find?, he, hem, h, Ne.symm h]
      · by_cases hem : e.1 = m
        · simp [promoteField, lookupTy, List.find?, he, hem, h, Ne.symm h]
        · simpa [promoteField, lookupTy, List.find?, he, hem, h, Ne.symm h] using ih

theorem lookupTy_foldl_cols (cols : List PCol) :
    ∀ (acc : List (String × PType)) (n : String),
      lookupTy (cols.foldl (fun a c => promoteField a c.name c.ty) acc) n =
        occFold (lookupTy acc n) ((cols.filter (fun c => c.name = n)).map (·.ty)) := by
  induction cols with
  | nil => intro acc n; simp [occFold]
  | cons c rest ih =>
      intro acc n
      simp only [List.foldl_cons]
      rw [ih]
      by_cases hcn : c.name = n
      · subst hcn
        rw [lookupTy_promoteField_self]
        have hfil : (c :: rest).filter (fun c' => c'.name = c.name) =
            c :: rest.filter (fun c' => c'.name = c.name) := by
          simp [List.filter_cons]
        rw [hfil, List.map_cons]
        cases hl : lookupTy acc c.name <;> simp [occFold]
      · rw [lookupTy_promoteField_ne _ _ _ _ (Ne.symm hcn)]
        have hfil : (c :: rest).filter (fun c' => c'.name = n) =
            rest.filter (fun c' => c'.name = n) := by
          simp [List.filter_cons, hcn]
        rw [hfil]

theorem unifiedFields_flat (ts : List PTable) :
    unifiedFields ts =
      (ts.flatMap (·.cols)).foldl (fun a c => promoteField a c.name c.ty) [] := by
  suffices h : ∀ acc, ts.foldl (fun acc t => t.cols.foldl (fun a c => promoteField a c.name c.ty) acc) acc =
      (ts.flatMap (·.cols)).foldl (fun a c => promoteField a c.name c.ty) acc by
    exact h []
  induction ts with
  | nil => intro acc; rfl
  | cons t rest ih =>
      intro acc
      simp only [List.foldl_cons, List.flatMap_cons, List.foldl_append]
      exact ih _

theorem lookupTy_unifiedFields (ts : List PTable) (n : String) :
    lookupTy (unifiedFields ts) n = occFold none (occTys ts n) := by
  rw [unifiedFields_flat, lookupTy_foldl_cols]
  rfl

theorem occFold_string_stays (tys : List PType)
    (h : ∀ t ∈ tys, t = .pnull ∨ t = .pstring) :
    occFold (some .pstring) tys = some .pstring := by
  induction tys with
  | nil => rfl
  | cons t rest ih =>
      rcases h t (List.mem_cons_self _ _) with rfl | rfl
      · exact ih (fun t ht => h t (List.mem_cons_of_mem _ ht))
      · exact ih (fun t ht => h t (List.mem_cons_of_mem _ ht))

theorem occFold_null_string (tys : List PType)
    (h : ∀ t ∈ tys, t = .pnull ∨ t = .pstring) (hs : .pstring ∈ tys) :
    occFold none tys = some .pstring ∧ occFold (some .pnull) tys = some .pstring := by
  induction tys with
  | nil => cases hs
  | cons t rest ih =>
      have hrest := fun t ht => h t (List.mem_cons_of_mem _ ht)
      rcases h t (List.mem_cons_self _ _) with rfl | rfl
      · have hs' : PType.pstring ∈ rest := by
          rcases List.mem_cons.1 hs with h' | h'
          · cases h'
          · exact h'
        have := (ih hrest hs').2
        constructor
        · simpa [occFold] using this
        · simpa [occFold, promoteTy] using this
      · constructor
        · simpa [occFold] using occFold_string_stays rest hrest
        · simpa [occFold, promoteTy] using occFold_string_stays rest hrest

theorem occFold_float_stays (tys : List PType)
    (h : ∀ t ∈ tys, t = .pint ∨ t = .pfloat) :
    occFold (some .pfloat) tys = some .pfloat := by
  induction tys with
  | nil => rfl
  | cons t rest ih =>
      rcases h t (List.mem_cons_self _ _) with rfl | rfl
      · exact ih (fun t ht => h t (List.mem_cons_of_mem _ ht))
      · exact ih (fun t ht => h t (List.mem_cons_of_mem _ ht))

theorem occFold_int_float (tys : List PType)
    (h : ∀ t ∈ tys, t = .pint ∨ t = .pfloat) (hf : .pfloat ∈ tys) :
    occFold none tys = some .pfloat ∧ occFold (some .pint) tys = some .pfloat := by
  induction tys with
  | nil => cases hf
  | cons t rest ih =>
      have hrest := fun t ht => h t (List.mem_cons_of_mem _ ht)
      rcases h t (List.mem_cons_self _ _) with rfl | rfl
      · have hf' : PType.pfloat ∈ rest := by
          rcases List.mem_cons.1 hf with h' | h'
          · cases h'
          · exact h'
        have := (ih hrest hf').2
        constructor
        · simpa [occFold] using this
        · simpa [occFold, promoteTy] using this
      · constructor
        · simpa [occFold] using occFold_float_stays rest hrest
        · simpa [occFold, promoteTy] using occFold_float_stays rest hrest

/-- The unified attribute list's names, as produced by the fold. -/
theorem promoteField_keys (acc : List (String × PType)) (n : String) (ty : PType) :
    (promoteField acc n ty).map (·.1) =
      if n ∈ acc.map (·.1) then acc.map (·.1) else acc.map (·.1) ++ [n] := by
  induction acc with
  | nil => simp [promoteField]
  | cons e rest ih =>
      by_cases he : e.1 = n
      · simp [promoteField, he]
      · simp only [promoteField, if_neg he, List.map_cons, ih]
        by_cases hm : n ∈ rest.map (·.1) <;> simp [hm, Ne.symm he]

theorem unifiedFields_keys (ts : List PTable) :
    (unifiedFields ts).map (·.1) = firstSeen ((ts.flatMap (·.cols)).map (·.name)) := by
  rw [unifiedFields_flat]
  unfold firstSeen
  rw [List.foldl_map]
  suffices h : ∀ (cols : List PCol) (acc : List (String × PType)),
      (cols.foldl (fun a c => promoteField a c.name c.ty) acc).map (·.1) =
        cols.foldl (fun ks c => if c.name ∈ ks then ks else ks ++ [c.name]) (acc.map (·.1)) by
    simpa using h (ts.flatMap (·.cols)) []
  intro cols
  induction cols with
  | nil => intro acc; rfl
  | cons c rest ih =>
      intro acc
      simp only [List.foldl_cons, ih, promoteField_keys]

theorem roundDouble_small (m : Int) (h : m.natAbs ≤ 2 ^ 53) : roundDouble m = m := by
  unfold roundDouble
  rw [if_pos h]

theorem castAll_int_small (vals : List PValue)
    (hv : ∀ v ∈ vals, ∃ m : Int, v = .vint m ∧ m.natAbs ≤ 2 ^ 53) :
    castAll vals .pfloat =
      some (vals.map (fun v => match v with
        | .vint m => .vfloat (m : ℚ)
        | v => v)) := by
  induction vals with
  | nil => rfl
  | cons v rest ih =>
      obtain ⟨m, rfl, hm⟩ := hv v (List.mem_cons_self _ _)
      have hr := ih (fun v hvr => hv v (List.mem_cons_of_mem _ hvr))
      simp only [castAll, castVal, hr, roundDouble_small m hm, List.map_cons]

theorem castColumn_int_to_float (c : PCol) (hty : c.ty = .pint)
    (hv : ∀ v ∈ c.vals, ∃ m : Int, v = .vint m ∧ m.natAbs ≤ 2 ^ 53) :
    castColumn c .pfloat =
      ⟨c.name, .pfloat, c.vals.map (fun v => match v with
        | .vint m => .vfloat (m : ℚ)
        | v => v)⟩ := by
  unfold castColumn
  rw [if_neg (by rw [hty]; decide), castAll_int_small c.vals hv]

theorem castColumn_name (c : PCol) (ty : PType) : (castColumn c ty).name = c.name := by
  unfold castColumn
  split
  · rfl
  · split <;> rfl

theorem find?_map_fields (fields : List (String × PType)) (g : (String × PType) → PCol)
    (hg : ∀ f, (g f).name = f.1) (n : String) :
    (fields.map g).find? (fun c => c.name = n) = (fields.find? (fun f => f.1 = n)).map g := by
  induction fields with
  | nil => rfl
  | cons f rest ih =>
      by_cases hf : f.1 = n
      · simp [List.find?, hg, hf]
      · simp [List.find?, hg, hf, ih]

theorem lookupTy_find? (fields : List (String × PType)) (n : String) (u : PType)
    (hn : lookupTy fields n = some u) :
    fields.find? (fun f => f.1 = n) = some (n, u) := by
  unfold lookupTy at hn
  obtain ⟨f, hf, hf2⟩ := Option.map_eq_some'.mp hn
  have hf1 : f.1 = n := by simpa using List.find?_some hf
  rw [hf]
  cases f
  simp_all

theorem findCol_reconcile (fields : List (String × PType)) (t : PTable) (n : String)
    (u : PType) (hn : lookupTy fields n = some u) :
    findCol (reconcile fields t) n =
      some (match findCol t n with
            | some c => castColumn c u
            | none => ⟨n, u, List.replicate (numRows t) .vnull⟩) := by
  have hg : ∀ f : String × PType,
      ((fun f : String × PType =>
        match findCol t f.1 with
        | some c => castColumn c f.2
        | none => (⟨f.1, f.2, List.replicate (numRows t) .vnull⟩ : PCol)) f).name = f.1 := by
    intro f
    cases hc : findCol t f.1 with
    | none => simp [hc]
    | some c =>
        have : c.name = f.1 := by simpa using List.find?_some hc
        simp [hc, castColumn_name, this]
  show ((fields.map _).find? _) = _
  rw [find?_map_fields fields _ hg n, lookupTy_find? fields n u hn]
  rfl

theorem findCol_concatTables (fields : List (String × PType)) (uts : List PTable) (n : String)
    (u : PType) (hn : lookupTy fields n = some u) :
    findCol (concatTables fields uts) n =
      some ⟨n, u, uts.flatMap (fun t => ((findCol t n).map (·.vals)).getD [])⟩ := by
  have hg : ∀ f : String × PType,
      ((fun f : String × PType =>
        (⟨f.1, f.2, uts.flatMap (fun t => ((findCol t f.1).map (·.vals)).getD [])⟩ : PCol)) f).name
        = f.1 := fun f => rfl
  show ((fields.map _).find? _) = _
  rw [find?_map_fields fields _ hg n, lookupTy_find? fields n u hn]
  rfl

/-! ### Schema unification: claim C3 -/

/-- C3, amended: across any table list, an attribute occurring untyped-null
in some tables and textual in others is unified as textual; an attribute
occurring integer-typed in some and floating-point in others is unified as
floating-point, with integer values of magnitude at most `2^53` (the
exactly representable doubles) converting losslessly; and the unified
attribute list is in first-seen order.  (For larger integers Arrow's
`int64 -> float64` cast silently rounds, so the conversion is not lossless
in general — see the counterexample.) -/
theorem unify_schema_resolution (ts : List PTable) (x y : String)
    (hx1 : ∀ ty ∈ occTys ts x, ty = .pnull ∨ ty = .pstring)
    (hx2 : .pstring ∈ occTys ts x) (_hx3 : .pnull ∈ occTys ts x)
    (hy1 : ∀ ty ∈ occTys ts y, ty = .pint ∨ ty = .pfloat)
    (hy2 : .pfloat ∈ occTys ts y) (_hy3 : .pint ∈ occTys ts y) :
    lookupTy (unifiedFields ts) x = some .pstring ∧
    lookupTy (unifiedFields ts) y = some .pfloat ∧
    (unifiedFields ts).map (·.1) = firstSeen ((ts.flatMap (·.cols)).map (·.name)) ∧
    (∀ t ∈ ts, ∀ c, findCol t y = some c → c.ty = .pint →
      (∀ v ∈ c.vals, ∃ m : Int, v = .vint m ∧ m.natAbs ≤ 2 ^ 53) →
      findCol (reconcile (unifiedFields ts) t) y =
        some ⟨c.name, .pfloat, c.vals.map (fun v => match v with
          | .vint m => .vfloat (m : ℚ)
          | v => v)⟩) := by
  have h1 : lookupTy (unifiedFields ts) x = some .pstring := by
    rw [lookupTy_unifiedFields]
    exact (occFold_null_string _ hx1 hx2).1
  have h2 : lookupTy (unifiedFields ts) y = some .pfloat := by
    rw [lookupTy_unifiedFields]
    exact (occFold_int_float _ hy1 hy2).1
  refine ⟨h1, h2, unifiedFields_keys ts, ?_⟩
  intro t _ c hc hcty hvals
  rw [findCol_reconcile _ _ _ _ h2, hc]
  exact congrArg some (castColumn_int_to_float c hcty hvals)

/-- C3, witness for `unify_schema_resolution` at two concrete shards. -/
theorem unify_schema_resolution_witness :
    lookupTy (unifiedFields [xyNullIntTable, xyStrFloatTable]) "x" = some .pstring ∧
    lookupTy (unifiedFields [xyNullIntTable, xyStrFloatTable]) "y" = some .pfloat ∧
    (unifiedFields [xyNullIntTable, xyStrFloatTable]).map (·.1) =
      firstSeen (([xyNullIntTable, xyStrFloatTable].flatMap (·.cols)).map (·.name)) ∧
    (∀ t ∈ [xyNullIntTable, xyStrFloatTable], ∀ c, findCol t "y" = some c → c.ty = .pint →
      (∀ v ∈ c.vals, ∃ m : Int, v = .vint m ∧ m.natAbs ≤ 2 ^ 53) →
      findCol (reconcile (unifiedFields [xyNullIntTable, xyStrFloatTable]) t) "y" =
        some ⟨c.name, .pfloat, c.vals.map (fun v => match v with
          | .vint m => .vfloat (m : ℚ)
          | v => v)⟩) :=
  unify_schema_resolution [xyNullIntTable, xyStrFloatTable] "x" "y"
    (by decide) (by decide) (by decide) (by decide) (by decide) (by decide)

/-- C3, counterexample to losslessness as stated: unifying an int64 shard
holding `2^53 + 1` with a float64 shard types the column float, but the
cast value is the rounded `2^53`, not `2^53 + 1` — the integer value does
not convert losslessly. -/
theorem unify_int_float_lossy_cex :
    unify_and_concat
        [⟨[⟨"y", .pint, [.vint (2 ^ 53 + 1)]⟩]⟩,
         ⟨[⟨"y", .pfloat, [.vfloat ((3 : Int) : ℚ)]⟩]⟩] =
      some ⟨[⟨"y", .pfloat,
        [.vfloat ((2 ^ 53 : Int) : ℚ), .vfloat ((3 : Int) : ℚ)]⟩]⟩ ∧
    PValue.vfloat ((2 ^ 53 : Int) : ℚ) ≠ PValue.vfloat ((2 ^ 53 + 1 : Int) : ℚ) := by
  exact ⟨by decide, by decide⟩

/-! ### File-name parsing and merge-mode lemmas (C1, C10) -/

theorem filter_range_eq_singleton (n k : Nat) (hk : k < n) (p : Nat → Bool)
    (hp : ∀ i, p i = true ↔ i = k) : (List.range n).filter p = [k] := by
  induction n with
  | zero => omega
  | succ n ih =>
      rw [List.range_succ, List.filter_append]
      by_cases h : k = n
      · subst h
        have h1 : (List.range k).filter p = [] := by
          rw [List.filter_eq_nil]
          intro i hi
          rw [hp i]
          have := List.mem_range.1 hi
          omega
        have h2 : [k].filter p = [k] := by
          simp [List.filter, (hp k).2 rfl]
        rw [h1, h2]
        rfl
      · have h1 := ih (by omega)
        have h2 : [n].filter p = [] := by
          have : p n = false := by
            rcases hpn : p n with _ | _
            · rfl
            · exact absurd ((hp n).1 hpn) (fun he => h he.symm)
          simp [List.filter, this]
        rw [h1, h2, List.append_nil]

theorem lastOccIdx_append (bd : List Char) (c : Char) (sd' : List Char)
    (hch : ∀ ch ∈ bd, ch ≠ c) :
    lastOccIdx (bd ++ c :: sd') (c :: sd') = some bd.length := by
  unfold lastOccIdx
  rw [filter_range_eq_singleton _ bd.length
    (by rw [List.length_append]; omega) _ ?_]
  · exact List.getLast?_singleton _
  intro i
  constructor
  · intro hpre
    rw [List.isPrefixOf_iff_prefix] at hpre
    rcases lt_trichotomy i bd.length with hlt | heq | hgt
    · exfalso
      have hd : (bd ++ c :: sd').drop i = bd.drop i ++ c :: sd' :=
        List.drop_append_of_le_length (by omega)
      rw [hd] at hpre
      cases hdrop : bd.drop i with
      | nil =>
          have := congrArg List.length hdrop
          simp at this
          omega
      | cons dh dt =>
          rw [hdrop, List.cons_append, List.cons_prefix_cons] at hpre
          have hdm : dh ∈ bd := by
            refine (List.drop_sublist i bd).subset ?_
            rw [hdrop]
            exact List.mem_cons_self _ _
          exact hch dh hdm hpre.1.symm
    · exact heq
    · exfalso
      obtain ⟨j, rfl⟩ : ∃ j, i = bd.length + (j + 1) := ⟨i - bd.length - 1, by omega⟩
      rw [List.drop_append] at hpre
      have hlen := hpre.length_le
      simp at hlen
      omega
  · rintro rfl
    have : (bd ++ c :: sd').drop bd.length = c :: sd' := by
      have h0 : (bd ++ c :: sd').drop (bd.length + 0) = (c :: sd').drop 0 :=
        List.drop_append 0
      simpa using h0
    rw [this, List.isPrefixOf_iff_prefix]

theorem pyRsplitHead_append_underscore (b ty : String)
    (hch : ∀ ch ∈ b.data, ch ≠ '_') :
    pyRsplitHead (b ++ "_" ++ ty) ("_" ++ ty) = b := by
  unfold pyRsplitHead
  have hd1 : (b ++ "_" ++ ty).data = b.data ++ '_' :: ty.data := by
    rw [String.data_append, String.data_append]
    simp
  have hd2 : ("_" ++ ty).data = '_' :: ty.data := by
    rw [String.data_append]
    rfl
  rw [hd1, hd2, lastOccIdx_append b.data '_' ty.data hch]
  show String.mk (List.take b.data.length (b.data ++ '_' :: ty.data)) = b
  rw [List.take_left]

theorem strIsDigits_no_underscore (b : String) (h : strIsDigits b = true) :
    ∀ ch ∈ b.data, ch ≠ '_' := by
  unfold strIsDigits at h
  rw [Bool.and_eq_true, List.all_eq_true] at h
  intro ch hch heq
  have := h.2 ch hch
  rw [heq] at this
  exact absurd this (by decide)

theorem extract_match_id_append (b ty : String) (hb : strIsDigits b = true) :
    extract_match_id (b ++ "_" ++ ty) ty = some b := by
  unfold extract_match_id
  rw [pyRsplitHead_append_underscore b ty (strIsDigits_no_underscore b hb), if_pos hb]

theorem strEndsWith_append (x s : String) : strEndsWith (x ++ s) s = true := by
  unfold strEndsWith
  rw [String.data_append, List.isSuffixOf_iff_suffix]
  exact List.suffix_append _ _

theorem findCol_append_last (cols : List PCol) (col : PCol) (n : String)
    (hn : ∀ c ∈ cols, c.name ≠ n) (hcol : col.name = n) :
    findCol ⟨cols ++ [col]⟩ n = some col := by
  induction cols with
  | nil => simp [findCol, List.find?, hcol]
  | cons c rest ih =>
      have hc := hn c (List.mem_cons_self _ _)
      have := ih (fun c hcm => hn c (List.mem_cons_of_mem _ hcm))
      simpa [findCol, List.find?, hc] using this

theorem filter_name_eq_singleton (cols : List PCol) (n : String) (c : PCol)
    (hnd : (cols.map (·.name)).Nodup) (hf : cols.find? (fun c => c.name = n) = some c) :
    cols.filter (fun c => c.name = n) = [c] := by
  induction cols with
  | nil => simp [List.find?] at hf
  | cons d rest ih =>
      by_cases hd : d.name = n
      · have hdc : d = c := by
          simpa [List.find?, hd] using hf
        subst hdc
        have hrest : rest.filter (fun c => c.name = n) = [] := by
          rw [List.filter_eq_nil]
          intro e he heq
          have : d.name ∈ rest.map (·.name) := by
            rw [hd, ← (by simpa using heq : e.name = n)]
            exact List.mem_map_of_mem _ he
          exact (List.nodup_cons.1 hnd).1 this
        simp [List.filter, hd, hrest]
      · have hf' : rest.find? (fun c => c.name = n) = some c := by
          simpa [List.find?, hd] using hf
        have := ih (List.nodup_cons.1 hnd).2 hf'
        simp [List.filter, hd, this]

theorem castAll_to_string (vals : List PValue) :
    castAll vals .pstring = some (vals.map fallbackToString) := by
  induction vals with
  | nil => rfl
  | cons v rest ih =>
      cases v <;> simp [castAll, castVal, fallbackToString, arrowValToString, ih]

theorem pyStr_fallbackToString (v : PValue)
    (hv : (∃ m : Int, v = .vint m) ∨ (∃ s, v = .vstr s)) :
    pyStr (fallbackToString v) = pyStr v := by
  rcases hv with ⟨m, rfl⟩ | ⟨s, rfl⟩ <;> rfl

theorem firstSeen_aux_nodup (l : List String) :
    ∀ acc : List String, acc.Nodup →
      (l.foldl (fun ks n => if n ∈ ks then ks else ks ++ [n]) acc).Nodup := by
  induction l with
  | nil => intro acc h; exact h
  | cons n rest ih =>
      intro acc h
      simp only [List.foldl_cons]
      by_cases hm : n ∈ acc
      · rw [if_pos hm]
        exact ih acc h
      · rw [if_neg hm]
        refine ih _ ?_
        rw [← List.concat_eq_append]
        exact List.Nodup.concat hm h

theorem unifiedFields_keys_nodup (ts : List PTable) :
    ((unifiedFields ts).map (·.1)).Nodup := by
  rw [unifiedFields_keys]
  exact firstSeen_aux_nodup _ [] List.nodup_nil

theorem toFinset_replicate_pos {α : Type} [DecidableEq α] (n : Nat) (c : α) (h : 0 < n) :
    (List.replicate n c).toFinset = {c} := by
  ext x
  simp [List.mem_replicate, Finset.mem_singleton]
  omega

/-! ### Merge-mode consolidation (C1) -/

theorem castColumn_pyStr (cP : PCol)
    (hVals : ∀ v ∈ cP.vals, (∃ m : Int, v = .vint m) ∨ (∃ s, v = .vstr s)) :
    (castColumn cP .pstring).vals.map pyStr = cP.vals.map pyStr := by
  by_cases hcp : cP.ty = .pstring
  · unfold castColumn
    rw [if_pos hcp]
  · unfold castColumn
    rw [if_neg hcp, castAll_to_string]
    simp only [List.map_map]
    exact List.map_congr_left (fun v hv => pyStr_fallbackToString v (hVals v hv))

/-- C1: merging a prior combined dataset covering unit ids `{a, b}` with a
shard directory holding balls shards for units `b` and `c` yields a
combined dataset whose normalized unit-id set is exactly `{a, b, c}`, with
`b`'s rows (and `a`'s) coming only from the prior dataset — the `b` shard
is skipped because its filename-extracted id, compared against the prior
ids normalized to strings via `str(...)`, is already present. -/
theorem combine_merge_union (a b c : String) (P Tb Tc : PTable) (cP : PCol)
    (hb : strIsDigits b = true) (hc : strIsDigits c = true)
    (hca : c ≠ a) (hcb : c ≠ b)
    (hP : findCol P "match_id" = some cP)
    (hTy : cP.ty = .pint ∨ cP.ty = .pstring)
    (hVals : ∀ v ∈ cP.vals, (∃ m : Int, v = .vint m) ∨ (∃ s, v = .vstr s))
    (hIds : (cP.vals.map pyStr).toFinset = {a, b})
    (hPn : (colNames P).Nodup)
    (hTc : "match_id" ∉ colNames (rename_balls_columns Tc))
    (hTcn : 0 < numRows Tc) :
    ∃ T colOut,
      (combine_table_type true (some P) true
          [(b ++ "_balls", Tb), (c ++ "_balls", Tc)] "balls").1 = some T ∧
      findCol T "match_id" = some colOut ∧
      (colOut.vals.map pyStr).toFinset = {a, b, c} ∧
      List.count b (colOut.vals.map pyStr) = List.count b (cP.vals.map pyStr) ∧
      List.count a (colOut.vals.map pyStr) = List.count a (cP.vals.map pyStr) := by
  have hextb : extract_match_id (b ++ "_balls") "balls" = some b := by
    have h := extract_match_id_append b "balls" hb
    have he : b ++ "_" ++ "balls" = b ++ "_balls" := by
      rw [String.append_assoc]
      rfl
    rwa [he] at h
  have hextc : extract_match_id (c ++ "_balls") "balls" = some c := by
    have h := extract_match_id_append c "balls" hc
    have he : c ++ "_" ++ "balls" = c ++ "_balls" := by
      rw [String.append_assoc]
      rfl
    rwa [he] at h
  have hids : existingIdsOf (some P) = cP.vals.map pyStr := by
    simp [existingIdsOf, hP]
  have hbe : b ∈ cP.vals.map pyStr := by
    have hmem : b ∈ (cP.vals.map pyStr).toFinset := by rw [hIds]; simp
    exact List.mem_toFinset.mp hmem
  have hce : c ∉ cP.vals.map pyStr := by
    intro hmem
    have hmem2 : c ∈ ({a, b} : Finset String) := by
      rw [← hIds]
      exact List.mem_toFinset.mpr hmem
    simp only [Finset.mem_insert, Finset.mem_singleton] at hmem2
    rcases hmem2 with h | h
    · exact hca h
    · exact hcb h
  have hnil : cP.vals.map pyStr ≠ [] := by
    intro h
    rw [h] at hbe
    exact List.not_mem_nil _ hbe
  have hglob : globFiles [(b ++ "_balls", Tb), (c ++ "_balls", Tc)] "balls" =
      [(b ++ "_balls", Tb), (c ++ "_balls", Tc)].mergeSort (fun x y => stemLe x.1 y.1) := by
    unfold globFiles
    congr 1
    rw [List.filter_eq_self]
    intro f hf
    rw [show ("_" ++ "balls" : String) = "_balls" from rfl]
    simp only [List.mem_cons, List.not_mem_nil, or_false] at hf
    rcases hf with rfl | rfl
    · exact strEndsWith_append b "_balls"
    · exact strEndsWith_append c "_balls"
  have hfsel : selectedFiles [(b ++ "_balls", Tb), (c ++ "_balls", Tc)] "balls"
      (cP.vals.map pyStr) = [(c ++ "_balls", Tc)] := by
    unfold selectedFiles ballFilter mergeFilter
    rw [hglob, if_neg (by decide : ¬("balls" = "match" ∨ "balls" = "innings")), if_pos hnil]
    refine List.perm_singleton.mp ?_
    refine ((List.mergeSort_perm _ _).filter _).trans ?_
    have hfl : [(b ++ "_balls", Tb), (c ++ "_balls", Tc)].filter
        (fun f => match extract_match_id f.1 "balls" with
          | some mid => decide (mid ∉ cP.vals.map pyStr)
          | none => true) = [(c ++ "_balls", Tc)] := by
      simp [List.filter, hextb, hextc, hbe, hce]
    rw [hfl]
  have htc' : attachMatchId Tc c "balls" =
      ⟨(rename_balls_columns Tc).cols ++
        [⟨"match_id", .pstring, List.replicate (numRows Tc) (.vstr c)⟩]⟩ := by
    simp [attachMatchId]
  obtain ⟨NCval, hUN⟩ : ∃ NCv, unify_and_concat [attachMatchId Tc c "balls"] = some NCv :=
    ⟨_, rfl⟩
  obtain ⟨Cval, hUC⟩ : ∃ Cv, unify_and_concat [P, NCval] = some Cv := ⟨_, rfl⟩
  have hrun : (combine_table_type true (some P) true
      [(b ++ "_balls", Tb), (c ++ "_balls", Tc)] "balls").1 = some Cval := by
    simp [combine_table_type, hids, hfsel, hextc, hUN, hUC]
  -- the unified type of match_id over the new table alone
  have hftc : findCol (attachMatchId Tc c "balls") "match_id" =
      some ⟨"match_id", .pstring, List.replicate (numRows Tc) (.vstr c)⟩ := by
    rw [htc']
    exact findCol_append_last _ _ _
      (fun cc hcc heq => hTc (heq ▸ List.mem_map_of_mem _ hcc)) rfl
  have hu1 : lookupTy (unifiedFields [attachMatchId Tc c "balls"]) "match_id" =
      some .pstring := by
    rw [lookupTy_unifiedFields]
    have hocc : occTys [attachMatchId Tc c "balls"] "match_id" = [.pstring] := by
      unfold occTys
      simp only [List.flatMap_cons, List.flatMap_nil, List.append_nil]
      rw [htc']
      show (((rename_balls_columns Tc).cols ++ _).filter _).map (·.ty) = _
      rw [List.filter_append]
      have h1 : (rename_balls_columns Tc).cols.filter (fun cc => cc.name = "match_id") = [] := by
        rw [List.filter_eq_nil]
        intro e he heq
        refine hTc ?_
        rw [← (show e.name = "match_id" by simpa using heq)]
        exact List.mem_map_of_mem _ he
      rw [h1]
      simp [List.filter]
    rw [hocc]
    rfl
  have hNCeq : NCval = concatTables (unifiedFields [attachMatchId Tc c "balls"])
      ([attachMatchId Tc c "balls"].map (reconcile (unifiedFields [attachMatchId Tc c "balls"]))) := by
    have h2 : unify_and_concat [attachMatchId Tc c "balls"] =
        some (concatTables (unifiedFields [attachMatchId Tc c "balls"])
          ([attachMatchId Tc c "balls"].map
            (reconcile (unifiedFields [attachMatchId Tc c "balls"])))) := rfl
    rw [hUN] at h2
    exact Option.some.inj h2
  have hfindNC : findCol NCval "match_id" =
      some ⟨"match_id", .pstring, List.replicate (numRows Tc) (.vstr c)⟩ := by
    rw [hNCeq, findCol_concatTables _ _ _ _ hu1]
    congr 1
    simp only [List.map_cons, List.map_nil, List.flatMap_cons, List.flatMap_nil, List.append_nil]
    rw [findCol_reconcile _ _ _ _ hu1, hftc]
    simp [castColumn]
  have hNCnodup : (colNames NCval).Nodup := by
    rw [hNCeq]
    have : colNames (concatTables (unifiedFields [attachMatchId Tc c "balls"])
        ([attachMatchId Tc c "balls"].map
          (reconcile (unifiedFields [attachMatchId Tc c "balls"])))) =
        (unifiedFields [attachMatchId Tc c "balls"]).map (·.1) := by
      simp [concatTables, colNames, List.map_map]
    rw [this]
    exact unifiedFields_keys_nodup _
  have hu2 : lookupTy (unifiedFields [P, NCval]) "match_id" = some .pstring := by
    rw [lookupTy_unifiedFields]
    have hocc2 : occTys [P, NCval] "match_id" = [cP.ty, .pstring] := by
      unfold occTys
      simp only [List.flatMap_cons, List.flatMap_nil, List.append_nil]
      rw [List.filter_append]
      have h1 : P.cols.filter (fun cc => cc.name = "match_id") = [cP] :=
        filter_name_eq_singleton P.cols "match_id" cP hPn hP
      have h2 : NCval.cols.filter (fun cc => cc.name = "match_id") =
          [⟨"match_id", .pstring, List.replicate (numRows Tc) (.vstr c)⟩] :=
        filter_name_eq_singleton NCval.cols "match_id" _ hNCnodup hfindNC
      rw [h1, h2]
      rfl
    rw [hocc2]
    rcases hTy with h | h <;> rw [h] <;> rfl
  have hCeq : Cval = concatTables (unifiedFields [P, NCval])
      ([P, NCval].map (reconcile (unifiedFields [P, NCval]))) := by
    have h2 : unify_and_concat [P, NCval] =
        some (concatTables (unifiedFields [P, NCval])
          ([P, NCval].map (reconcile (unifiedFields [P, NCval])))) := rfl
    rw [hUC] at h2
    exact Option.some.inj h2
  have hfindC : findCol Cval "match_id" =
      some ⟨"match_id", .pstring,
        (castColumn cP .pstring).vals ++ List.replicate (numRows Tc) (.vstr c)⟩ := by
    rw [hCeq, findCol_concatTables _ _ _ _ hu2]
    congr 1
    simp only [List.map_cons, List.map_nil, List.flatMap_cons, List.flatMap_nil, List.append_nil]
    rw [findCol_reconcile _ _ _ _ hu2, findCol_reconcile _ _ _ _ hu2, hP, hfindNC]
    simp [castColumn]
  refine ⟨Cval, _, hrun, hfindC, ?_, ?_, ?_⟩
  · rw [List.map_append, castColumn_pyStr cP hVals, List.map_replicate]
    rw [List.toFinset_append, hIds]
    rw [show pyStr (.vstr c) = c from rfl, toFinset_replicate_pos _ _ hTcn]
    ext x
    simp only [Finset.mem_union, Finset.mem_insert, Finset.mem_singleton]
    tauto
  · rw [List.map_append, castColumn_pyStr cP hVals, List.map_replicate, List.count_append]
    rw [show pyStr (.vstr c) = c from rfl, List.count_replicate]
    simp [hcb]
  · rw [List.map_append, castColumn_pyStr cP hVals, List.map_replicate, List.count_append]
    rw [show pyStr (.vstr c) = c from rfl, List.count_replicate]
    simp [hca]

/-- C1, witness for `combine_merge_union`: prior ids `{"1", "2"}`, shards
for `"2"` and `"3"`. -/
theorem combine_merge_union_witness :
    ∃ T colOut,
      (combine_table_type true
          (some ⟨[⟨"match_id", .pstring, [.vstr "1", .vstr "2"]⟩]⟩) true
          [("2" ++ "_balls", ⟨[⟨"id", .pint, [.vint 5]⟩]⟩),
           ("3" ++ "_balls", ⟨[⟨"id", .pint, [.vint 9]⟩]⟩)] "balls").1 = some T ∧
      findCol T "match_id" = some colOut ∧
      (colOut.vals.map pyStr).toFinset = {"1", "2", "3"} ∧
      List.count "2" (colOut.vals.map pyStr) =
        List.count "2" (([.vstr "1", .vstr "2"] : List PValue).map pyStr) ∧
      List.count "1" (colOut.vals.map pyStr) =
        List.count "1" (([.vstr "1", .vstr "2"] : List PValue).map pyStr) :=
  combine_merge_union "1" "2" "3"
    ⟨[⟨"match_id", .pstring, [.vstr "1", .vstr "2"]⟩]⟩
    ⟨[⟨"id", .pint, [.vint 5]⟩]⟩ ⟨[⟨"id", .pint, [.vint 9]⟩]⟩
    ⟨"match_id", .pstring, [.vstr "1", .vstr "2"]⟩
    (by decide) (by decide) (by decide) (by decide) (by decide) (by decide)
    (by
      intro v hv
      simp only [List.mem_cons, List.not_mem_nil, or_false] at hv
      rcases hv with rfl | rfl
      · exact Or.inr ⟨"1", rfl⟩
      · exact Or.inr ⟨"2", rfl⟩)
    (by decide) (by decide) (by decide) (by decide)

/-! ### Match/innings shards require balls coverage (C10) -/

theorem charListLe_trans : ∀ (x y z : List Char),
    charListLe x y = true → charListLe y z = true → charListLe x z = true
  | [], _, _, _, _ => by simp [charListLe]
  | _ :: _, [], _, h1, _ => by simp [charListLe] at h1
  | _ :: _, _ :: _, [], _, h2 => by simp [charListLe] at h2
  | x :: xs, y :: ys, z :: zs, h1, h2 => by
      simp only [charListLe, Bool.or_eq_true, Bool.and_eq_true, decide_eq_true_eq] at h1 h2 ⊢
      rcases h1 with hlt1 | ⟨heq1, hrec1⟩ <;> rcases h2 with hlt2 | ⟨heq2, hrec2⟩
      · left; omega
      · subst heq2; left; exact hlt1
      · subst heq1; left; exact hlt2
      · subst heq1; subst heq2
        exact Or.inr ⟨rfl, charListLe_trans xs ys zs hrec1 hrec2⟩

theorem charListLe_total : ∀ (x y : List Char),
    (charListLe x y || charListLe y x) = true
  | [], _ => by simp [charListLe]
  | _ :: _, [] => by simp [charListLe]
  | x :: xs, y :: ys => by
      simp only [charListLe, Bool.or_eq_true, Bool.and_eq_true, decide_eq_true_eq]
      rcases Nat.lt_trichotomy x.toNat y.toNat with hlt | heq | hgt
      · exact Or.inl (Or.inl hlt)
      · have hxy : x = y := Char.ext (UInt32.toNat.inj heq)
        subst hxy
        have := charListLe_total xs ys
        simp only [Bool.or_eq_true] at this
        rcases this with h | h
        · exact Or.inl (Or.inr ⟨rfl, h⟩)
        · exact Or.inr (Or.inr ⟨rfl, h⟩)
      · exact Or.inr (Or.inl hgt)

theorem charListLe_antisymm : ∀ (x y : List Char),
    charListLe x y = true → charListLe y x = true → x = y
  | [], [], _, _ => rfl
  | [], _ :: _, _, h2 => by simp [charListLe] at h2
  | _ :: _, [], h1, _ => by simp [charListLe] at h1
  | x :: xs, y :: ys, h1, h2 => by
      simp only [charListLe, Bool.or_eq_true, Bool.and_eq_true, decide_eq_true_eq] at h1 h2
      rcases h1 with hlt1 | ⟨heq1, hrec1⟩ <;> rcases h2 with hlt2 | ⟨heq2, hrec2⟩
      · omega
      · subst heq2; omega
      · subst heq1; omega
      · subst heq1
        rw [charListLe_antisymm xs ys hrec1 hrec2]

theorem stemLe_antisymm (a b : String) (h1 : stemLe a b = true) (h2 : stemLe b a = true) :
    a = b := by
  have h := charListLe_antisymm a.data b.data h1 h2
  cases a
  cases b
  exact congrArg String.mk h

/-- Two lists sorted by stem order that are permutations of each other and
have no duplicate stems are equal. -/
theorem sorted_perm_nodup_eq : ∀ (L₁ L₂ : List (String × PTable)),
    L₁.Pairwise (fun p q => stemLe p.1 q.1 = true) →
    L₂.Pairwise (fun p q => stemLe p.1 q.1 = true) →
    L₁.Perm L₂ → (L₁.map (·.1)).Nodup → L₁ = L₂ := by
  intro L₁
  induction L₁ with
  | nil =>
      intro L₂ _ _ hp _
      exact (List.nil_perm.mp hp).symm
  | cons e t ih =>
      intro L₂ hs1 hs2 hp hnd
      have hnd2 : (L₂.map (·.1)).Nodup := (hp.map (·.1)).nodup_iff.mp hnd
      have he2 : e ∈ L₂ := hp.mem_iff.mp (List.mem_cons_self _ _)
      obtain ⟨uu, vv, rfl⟩ := List.append_of_mem he2
      cases uu with
      | nil =>
          simp only [List.nil_append] at hp hs2 hnd2 ⊢
          have htv : t.Perm vv := hp.cons_inv
          have h1 := List.pairwise_cons.1 hs1
          have h2 := List.pairwise_cons.1 hs2
          rw [ih vv h1.2 h2.2 htv (List.nodup_cons.1 (by simpa using hnd)).2]
      | cons w uu' =>
          exfalso
          have hwe : w ≠ e := by
            rintro rfl
            have : w.1 ∈ ((uu' ++ w :: vv).map (·.1)) := by
              simp
            exact (List.nodup_cons.1 (by simpa using hnd2)).1 this
          have hwt : w ∈ t := by
            have hw2 : w ∈ e :: t := hp.mem_iff.mpr (by simp)
            rcases List.mem_cons.1 hw2 with h | h
            · exact absurd h hwe
            · exact h
          have hew : stemLe e.1 w.1 = true := (List.pairwise_cons.1 hs1).1 w hwt
          have hs2' : (w :: (uu' ++ e :: vv)).Pairwise (fun p q => stemLe p.1 q.1 = true) := by
            rw [List.cons_append] at hs2
            exact hs2
          have hwe2 : stemLe w.1 e.1 = true := by
            refine (List.pairwise_cons.1 hs2').1 e ?_
            simp
          have heq : e.1 = w.1 := stemLe_antisymm _ _ hew hwe2
          have : e.1 ∈ t.map (·.1) := by
            rw [heq]
            exact List.mem_map_of_mem _ hwt
          exact (List.nodup_cons.1 (by simpa using hnd)).1 this

theorem not_strEndsWith_append (u m : String) (hm : ¬ ("_balls".data <:+ m.data))
    (hlen : 6 ≤ m.data.length) :
    strEndsWith (u ++ m) "_balls" = false := by
  rcases hb : strEndsWith (u ++ m) "_balls" with _ | _
  · rfl
  · exfalso
    unfold strEndsWith at hb
    rw [List.isSuffixOf_iff_suffix, String.data_append] at hb
    rw [← List.reverse_prefix, List.reverse_append] at hb
    have hpre : ("_balls".data).reverse <+: (m.data).reverse := by
      refine List.prefix_of_prefix_length_le hb (List.prefix_append _ _) ?_
      simpa using hlen
    rw [List.reverse_prefix] at hpre
    exact hm hpre

/-- C10: for the match and innings kinds, a per-unit shard whose extracted
id has no balls shard in the directory never contributes to
`combine_table_type` — inserting such a file into the directory leaves the
result unchanged. -/
theorem combine_requires_balls (ty : String) (hty : ty = "match" ∨ ty = "innings")
    (merge : Bool) (priorFile : Option PTable) (dde : Bool)
    (pre post : List (String × PTable)) (u : String) (T : PTable)
    (hnodup : (((pre ++ [(u ++ "_" ++ ty, T)]) ++ post).map (·.1)).Nodup)
    (hnob : pyRsplitHead (u ++ "_" ++ ty) ("_" ++ ty) ∉ ballIds (pre ++ post)) :
    combine_table_type merge priorFile dde ((pre ++ [(u ++ "_" ++ ty, T)]) ++ post) ty =
      combine_table_type merge priorFile dde (pre ++ post) ty := by
  have hnoballs : strEndsWith (u ++ "_" ++ ty) "_balls" = false := by
    rw [String.append_assoc]
    rcases hty with rfl | rfl
    · exact not_strEndsWith_append u ("_" ++ "match") (by decide) (by decide)
    · exact not_strEndsWith_append u ("_" ++ "innings") (by decide) (by decide)
  have hBI : ballIds ((pre ++ [(u ++ "_" ++ ty, T)]) ++ post) = ballIds (pre ++ post) := by
    unfold ballIds
    rw [List.filter_append, List.filter_append, List.filter_append]
    have : [(u ++ "_" ++ ty, T)].filter (fun f => strEndsWith f.1 "_balls") = [] := by
      simp [List.filter, hnoballs]
    rw [this, List.append_nil]
  have hS : ∀ ids : List String,
      selectedFiles ((pre ++ [(u ++ "_" ++ ty, T)]) ++ post) ty ids =
        selectedFiles (pre ++ post) ty ids := by
    intro ids
    unfold selectedFiles ballFilter
    rw [if_pos hty, if_pos hty, hBI]
    have hBF : (globFiles ((pre ++ [(u ++ "_" ++ ty, T)]) ++ post) ty).filter
          (fun f => decide (pyRsplitHead f.1 ("_" ++ ty) ∈ ballIds (pre ++ post))) =
        (globFiles (pre ++ post) ty).filter
          (fun f => decide (pyRsplitHead f.1 ("_" ++ ty) ∈ ballIds (pre ++ post))) := by
      have htrans : ∀ (x y z : String × PTable), stemLe x.1 y.1 = true →
          stemLe y.1 z.1 = true → stemLe x.1 z.1 = true :=
        fun x y z h1 h2 => charListLe_trans x.1.data y.1.data z.1.data h1 h2
      have htot : ∀ (x y : String × PTable), (stemLe x.1 y.1 || stemLe y.1 x.1) = true :=
        fun x y => charListLe_total x.1.data y.1.data
      have hsort1 : (globFiles ((pre ++ [(u ++ "_" ++ ty, T)]) ++ post) ty).Pairwise
          (fun p q => stemLe p.1 q.1 = true) := by
        unfold globFiles
        exact List.sorted_mergeSort htrans htot _
      have hsort2 : (globFiles (pre ++ post) ty).Pairwise
          (fun p q => stemLe p.1 q.1 = true) := by
        unfold globFiles
        exact List.sorted_mergeSort htrans htot _
      refine sorted_perm_nodup_eq _ _
        (hsort1.sublist (List.filter_sublist _)) (hsort2.sublist (List.filter_sublist _)) ?_ ?_
      · -- permutation of the two filtered sorted lists
        refine ((List.mergeSort_perm _ _).filter _).trans ?_
        refine List.Perm.trans ?_ ((List.mergeSort_perm _ _).filter _).symm
        have hge : strEndsWith (u ++ "_" ++ ty) ("_" ++ ty) = true := by
          have h := strEndsWith_append u ("_" ++ ty)
          rw [← String.append_assoc] at h
          exact h
        have hinner : ((pre ++ [(u ++ "_" ++ ty, T)]) ++ post).filter
            (fun f => strEndsWith f.1 ("_" ++ ty)) =
            (pre.filter (fun f => strEndsWith f.1 ("_" ++ ty)) ++ [(u ++ "_" ++ ty, T)]) ++
              post.filter (fun f => strEndsWith f.1 ("_" ++ ty)) := by
          rw [List.filter_append, List.filter_append]
          congr 2
          simp [List.filter, hge]
        have hbf : [(u ++ "_" ++ ty, T)].filter
            (fun f => decide (pyRsplitHead f.1 ("_" ++ ty) ∈ ballIds (pre ++ post))) = [] := by
          simp [List.filter, hnob]
        rw [hinner]
        simp only [List.filter_append]
        rw [hbf, List.append_nil]
      · -- no duplicate stems among the filtered sorted files
        have hnd0 : ((((pre ++ [(u ++ "_" ++ ty, T)]) ++ post).filter
            (fun f => strEndsWith f.1 ("_" ++ ty))).map (·.1)).Nodup :=
          (List.Sublist.map (fun p : String × PTable => p.1)
            (List.filter_sublist _)).nodup hnodup
        have hnd1 : ((globFiles ((pre ++ [(u ++ "_" ++ ty, T)]) ++ post) ty).map (·.1)).Nodup := by
          unfold globFiles
          exact (List.Perm.map (fun p : String × PTable => p.1)
            (List.mergeSort_perm _ _)).nodup_iff.mpr hnd0
        exact (List.Sublist.map (fun p : String × PTable => p.1)
          (List.filter_sublist _)).nodup hnd1
    rw [hBF]
  simp only [combine_table_type, hS]

/-- C10, witness for `combine_requires_balls`: a lone match shard with no
balls shard contributes nothing. -/
theorem combine_requires_balls_witness :
    combine_table_type false none true
        (([] ++ [("7" ++ "_" ++ "match", (⟨[]⟩ : PTable))]) ++ []) "match" =
      combine_table_type false none true ([] ++ []) "match" :=
  combine_requires_balls "match" (by decide) false none true [] [] "7" ⟨[]⟩
    (by decide) (by decide)

end Bouncer
